import Mathlib

/-!
# WaitGroup (waitgroup.h): a verification development

The header defines a counter-based barrier: an atomic `unsigned int` counter,
a mutex and a condition variable, with the operations `Add`, `Done`, `Wait`,
`WaitFor` and the scope guard `DoneGuard`.

The development has two layers.

* A sequential layer: every member function is a function on the shared
  `Data` block.  It returns the new block, the returned value and the list of
  synchronisation events the call issues.  What other threads do while a
  waiter is inside `Wait`/`WaitFor` is an explicit argument: the counter
  value each predicate check reads and the wake-ups of the condition
  variable.
* A concurrent layer: a small-step machine whose threads execute the atomic
  actions of the member functions one at a time, under an arbitrary schedule.

`unsigned int` is taken 32 bits wide; its arithmetic is arithmetic modulo
`2 ^ 32`.  Time is a logical clock: a timed wait reports a timeout when it
returns at or after its deadline.
-/

namespace WaitGroup

/-! ## Sequential layer -/

/-- Number of values of the type `unsigned int`. -/
def uintSize : Nat := 4294967296

/-- The shared block `struct Data`.  Only the counter carries a value; the
mutex and the condition variable are observed through the events below. -/
structure Data where
  count : Nat
  deriving DecidableEq, Repr

/-- Synchronisation events on `data->mutex` and `data->cv`. -/
inductive Event where
  /-- The constructor of `std::unique_lock` acquires `data->mutex`. -/
  | lock
  /-- Call of `data->cv.notify_all()`. -/
  | notifyAll
  /-- The calling thread blocks on `data->cv`. -/
  | wait
  /-- The destructor of `std::unique_lock` releases `data->mutex`. -/
  | unlock
  deriving DecidableEq, Repr

/-- What a call of the constructor, of `Add` or of `Done` leaves behind. -/
structure Outcome (α : Type) where
  /-- The returned value; `none` when `assert` failed and aborted the
  process. -/
  result : Option α
  /-- The shared block after the call. -/
  data : Data
  /-- The synchronisation events of the call, in order. -/
  trace : List Event
  deriving DecidableEq, Repr

/-- Constructor `WaitGroup::WaitGroup(initialCount)`:
`data(std::make_shared<Data>())`, then `data->count = initialCount`. -/
def new (initialCount : Nat) : Outcome Unit :=
  { result := some (), data := { count := initialCount }, trace := [] }

/-- Member `Add(count)`: `data->count += count` on an `unsigned int`. -/
def Add (s : Data) (count : Nat) : Outcome Unit :=
  { result := some (), data := { count := (s.count + count) % uintSize }, trace := [] }

/-- Member `Done()`.  `assertOn` tells whether `assert` is compiled in
(`NDEBUG` not defined).

```
assert(data->count > 0);
if (--data->count == 0) {
    std::unique_lock<std::mutex> lock(data->mutex);
    data->cv.notify_all();
    return true;
}
return false;
```
-/
def Done (assertOn : Bool) (s : Data) : Outcome Bool :=
  if assertOn = true ∧ ¬ (s.count > 0) then
    { result := none, data := s, trace := [] }
  else
    let s1 : Data := { count := (s.count + uintSize - 1) % uintSize }
    if s1.count = 0 then
      { result := some true, data := s1,
        trace := [Event.lock, Event.notifyAll, Event.unlock] }
    else
      { result := some false, data := s1, trace := [] }

/-- One wake-up of a thread blocked on the condition variable. -/
structure Wake where
  /-- Milliseconds elapsed since the call began, at the moment the wait
  returns. -/
  elapsed : Nat
  /-- Value of `data->count` read by the predicate check that follows. -/
  count : Nat
  deriving DecidableEq, Repr

/-- What a predicate wait on the condition variable leaves behind. -/
structure CvOutcome (α : Type) where
  /-- The returned value; `none` when the thread is still blocked on the
  condition variable after the last wake-up supplied. -/
  status : Option α
  /-- The synchronisation events of the wait, in order. -/
  trace : List Event
  /-- The values read by the successive predicate checks. -/
  checks : List Nat
  deriving DecidableEq, Repr

/-- What a call of `Wait` or `WaitFor` leaves behind. -/
structure WaitOutcome (α : Type) where
  /-- The returned value; `none` when the thread is still blocked on the
  condition variable after the last wake-up supplied. -/
  status : Option α
  /-- The shared block as the stores of this call leave it. -/
  data : Data
  /-- The synchronisation events of the call, in order. -/
  trace : List Event
  /-- The values read by the successive `data->count == 0` checks. -/
  checks : List Nat
  deriving DecidableEq, Repr

/-- The loop of `cv.wait(lock, pred)`, `while (!pred()) wait(lock);`, entered
after a predicate check that failed. -/
def cvWaitLoop : List Wake → CvOutcome Unit
  | [] => { status := none, trace := [Event.wait], checks := [] }
  | w :: ws =>
    if w.count = 0 then
      { status := some (), trace := [Event.wait], checks := [w.count] }
    else
      let r := cvWaitLoop ws
      { status := r.status, trace := Event.wait :: r.trace, checks := w.count :: r.checks }

/-- The loop of `cv.wait_for(lock, ms, pred)`,
`while (!pred()) if (wait_until(lock, deadline) == cv_status::timeout) return pred(); return true;`,
entered after a predicate check that failed.  A wait reports `timeout` when
the deadline has passed at the moment it returns. -/
def cvWaitForLoop (milliseconds : Nat) : List Wake → CvOutcome Bool
  | [] => { status := none, trace := [Event.wait], checks := [] }
  | w :: ws =>
    if milliseconds ≤ w.elapsed then
      { status := some (w.count == 0), trace := [Event.wait], checks := [w.count] }
    else if w.count = 0 then
      { status := some true, trace := [Event.wait], checks := [w.count] }
    else
      let r := cvWaitForLoop milliseconds ws
      { status := r.status, trace := Event.wait :: r.trace, checks := w.count :: r.checks }

/-- The trailing `unlock` of a call that returned. -/
def unlockIfReturned {α : Type} (status : Option α) : List Event :=
  if status.isSome then [Event.unlock] else []

/-- Member `Wait()`.  `s` is the block at the call, `first` the counter value
read by the first predicate check under the lock, `wakes` the wake-ups.

```
if (data->count == 0) { return; }
std::unique_lock<std::mutex> lock(data->mutex);
data->cv.wait(lock, [this] { return data->count == 0; });
```
-/
def Wait (s : Data) (first : Nat) (wakes : List Wake) : WaitOutcome Unit :=
  if s.count = 0 then
    { status := some (), data := s, trace := [], checks := [s.count] }
  else if first = 0 then
    { status := some (), data := s, trace := [Event.lock, Event.unlock],
      checks := [s.count, first] }
  else
    let r := cvWaitLoop wakes
    { status := r.status, data := s,
      trace := Event.lock :: (r.trace ++ unlockIfReturned r.status),
      checks := s.count :: first :: r.checks }

/-- Member `WaitFor(milliseconds)`, with the arguments of `Wait`.

```
if (data->count == 0) { return true; }
std::unique_lock<std::mutex> lock(data->mutex);
return data->cv.wait_for(lock, std::chrono::milliseconds(milliseconds),
                         [this] { return data->count == 0; });
```
-/
def WaitFor (s : Data) (milliseconds : Nat) (first : Nat) (wakes : List Wake) :
    WaitOutcome Bool :=
  if s.count = 0 then
    { status := some true, data := s, trace := [], checks := [s.count] }
  else if first = 0 then
    { status := some true, data := s, trace := [Event.lock, Event.unlock],
      checks := [s.count, first] }
  else
    let r := cvWaitForLoop milliseconds wakes
    { status := r.status, data := s,
      trace := Event.lock :: (r.trace ++ unlockIfReturned r.status),
      checks := s.count :: first :: r.checks }

/-- A call that changes the counter. -/
inductive Call where
  /-- Call of `Add(count)`. -/
  | Add (count : Nat)
  /-- Call of `Done()`. -/
  | Done
  deriving DecidableEq, Repr

/-- Sum of the amounts passed to `Add` in a sequence of calls. -/
def adds : List Call → Nat
  | [] => 0
  | Call.Add n :: cs => n + adds cs
  | Call.Done :: cs => adds cs

/-- Number of `Done` calls in a sequence of calls. -/
def dones : List Call → Nat
  | [] => 0
  | Call.Add _ :: cs => dones cs
  | Call.Done :: cs => 1 + dones cs

/-- The block after one call; `none` when the call aborted the process. -/
def call (assertOn : Bool) (s : Data) : Call → Option Data
  | Call.Add n => some (Add s n).data
  | Call.Done =>
    match (Done assertOn s).result with
    | some _ => some (Done assertOn s).data
    | none => none

/-- The block after a sequence of calls made one after the other; `none` when
one of them aborted the process. -/
def run (assertOn : Bool) : Data → List Call → Option Data
  | s, [] => some s
  | s, c :: cs =>
    match call assertOn s c with
    | some s1 => run assertOn s1 cs
    | none => none

/-- How control leaves a scope. -/
inductive Exit where
  /-- Control reaches the closing brace. -/
  | normal
  /-- A `return` (or `break`, `continue`, `goto`) inside the scope. -/
  | earlyReturn
  /-- An exception propagates out of the scope. -/
  | exception
  deriving DecidableEq, Repr

/-- Constructor `DoneGuard::DoneGuard(const WaitGroup &_wg) : wg(_wg) {}`:
it binds the reference and has an empty body. -/
def DoneGuard.new (s : Data) : Data := s

/-- Destructor `~DoneGuard() { wg.Done(); }`. -/
def DoneGuard.destroy (assertOn : Bool) (s : Data) : Outcome Bool :=
  Done assertOn s

/-- A scope `{ DoneGuard guard(wg); body }`.  The guard is an automatic
object: its destructor runs when control leaves the scope, on each exit
path. -/
def guardedScope (assertOn : Bool) (body : Data → Data × Exit) (s : Data) :
    Outcome Bool × Exit :=
  let s0 := DoneGuard.new s
  let r := body s0
  match r.2 with
  | Exit.normal => (DoneGuard.destroy assertOn r.1, Exit.normal)
  | Exit.earlyReturn => (DoneGuard.destroy assertOn r.1, Exit.earlyReturn)
  | Exit.exception => (DoneGuard.destroy assertOn r.1, Exit.exception)

/-- The requirement on a sequence of calls from a counter at `c`: after each
prefix, the number of `Done` calls is at most `c` plus the amounts added, and
the balance fits an `unsigned int`. -/
def Balanced (c : Nat) (calls : List Call) : Prop :=
  ∀ k, k ≤ calls.length →
    dones (calls.take k) ≤ c + adds (calls.take k) ∧
    c + adds (calls.take k) - dones (calls.take k) < uintSize

/-! ## Concurrent layer -/

/-- A call a thread makes on the shared wait-group. -/
inductive Op where
  /-- Call of `Add(count)`. -/
  | Add (count : Nat)
  /-- Call of `Done()`, directly or from the destructor of a `DoneGuard`. -/
  | Done
  /-- Call of `Wait()`. -/
  | Wait
  /-- Call of `WaitFor(milliseconds)`. -/
  | WaitFor (milliseconds : Nat)
  deriving DecidableEq, Repr

/-- Where a thread stands inside the call it is executing. -/
inductive Pc where
  /-- About to execute the first action of the call. -/
  | entry
  /-- In `Done`: the assertion passed; about to execute `--data->count`. -/
  | decrement
  /-- In `Done`: the counter reached 0; about to acquire the mutex. -/
  | lockNotify
  /-- In `Done`: holding the mutex; about to call `notify_all`. -/
  | notify
  /-- Holding the mutex; about to release it and return the given value
  (`none` for the `void` function `Wait`). -/
  | unlock (ret : Option Bool)
  /-- In `Wait`/`WaitFor`: the fast-path check failed; about to acquire the
  mutex. -/
  | lockWait
  /-- In `Wait`/`WaitFor`: holding the mutex; about to evaluate the predicate
  as the loop test. -/
  | pred
  /-- In `Wait`/`WaitFor`: holding the mutex, the predicate was false; about
  to call the wait on the condition variable, which releases the mutex and
  blocks in one atomic action. -/
  | enterWait
  /-- In `Wait`/`WaitFor`: blocked on the condition variable, mutex
  released. -/
  | blocked
  /-- In `Wait`/`WaitFor`: unblocked (with or without timeout); about to
  reacquire the mutex. -/
  | woken (timedOut : Bool)
  /-- In `WaitFor`: holding the mutex after a timeout; about to execute
  `return pred()`. -/
  | predTimeout
  deriving DecidableEq, Repr

/-- A thread: the calls it still has to make (the head is the one in
progress), its position in the call in progress, and the values its `Done`
and `WaitFor` calls have returned so far. -/
structure Thread where
  ops : List Op
  pc : Pc
  rets : List Bool
  deriving DecidableEq, Repr

/-- A state of the program: the shared block (counter, owner of the mutex),
the threads, and whether a failed `assert` has aborted the process. -/
structure Config where
  count : Nat
  mutex : Option Nat
  threads : List Thread
  aborted : Bool
  deriving DecidableEq, Repr

/-- The thread after its call in progress has returned. -/
def Thread.finish (th : Thread) (ret : Option Bool) : Thread :=
  { ops := th.ops.tail, pc := Pc.entry,
    rets := match ret with
      | some b => th.rets ++ [b]
      | none => th.rets }

/-- The thread at another position of the same call. -/
def Thread.goto (th : Thread) (pc : Pc) : Thread :=
  { ops := th.ops, pc := pc, rets := th.rets }

/-- Effect of `notify_all` on one thread: a thread blocked on the condition
variable is unblocked. -/
def Thread.notified (th : Thread) : Thread :=
  if th.pc = Pc.blocked then th.goto (Pc.woken false) else th

/-- The state with thread `t` replaced. -/
def Config.setThread (c : Config) (t : Nat) (th : Thread) : Config :=
  { count := c.count, mutex := c.mutex, threads := c.threads.set t th, aborted := c.aborted }

/-- Thread `t` acquires the mutex and moves to `pc`; not enabled while the
mutex is owned. -/
def Config.acquire (c : Config) (t : Nat) (th : Thread) (pc : Pc) : Option Config :=
  match c.mutex with
  | none =>
    some { count := c.count, mutex := some t, threads := c.threads.set t (th.goto pc),
           aborted := c.aborted }
  | some _ => none

/-- Thread `t` releases the mutex and becomes `th`. -/
def Config.release (c : Config) (t : Nat) (th : Thread) : Config :=
  { count := c.count, mutex := none, threads := c.threads.set t th, aborted := c.aborted }

/-- The atomic action `--data->count` of `Done` and the branch on its
result. -/
def stepDecrement (c : Config) (t : Nat) (th : Thread) : Config :=
  let n := (c.count + uintSize - 1) % uintSize
  if n = 0 then
    { count := n, mutex := c.mutex, threads := c.threads.set t (th.goto Pc.lockNotify),
      aborted := c.aborted }
  else
    { count := n, mutex := c.mutex, threads := c.threads.set t (th.finish (some false)),
      aborted := c.aborted }

/-- Next atomic action of thread `t` inside `Add(n)`. -/
def stepAdd (c : Config) (t : Nat) (th : Thread) (n : Nat) : Option Config :=
  match th.pc with
  | Pc.entry =>
    some { count := (c.count + n) % uintSize, mutex := c.mutex,
           threads := c.threads.set t (th.finish none), aborted := c.aborted }
  | _ => none

/-- Next atomic action of thread `t` inside `Done()`. -/
def stepDone (assertOn : Bool) (c : Config) (t : Nat) (th : Thread) : Option Config :=
  match th.pc with
  | Pc.entry =>
    if assertOn then
      if c.count > 0 then some (c.setThread t (th.goto Pc.decrement))
      else some { count := c.count, mutex := c.mutex, threads := c.threads, aborted := true }
    else some (stepDecrement c t th)
  | Pc.decrement => some (stepDecrement c t th)
  | Pc.lockNotify => c.acquire t th Pc.notify
  | Pc.notify =>
    some { count := c.count, mutex := c.mutex,
           threads := (c.threads.map Thread.notified).set t (th.goto (Pc.unlock (some true))),
           aborted := c.aborted }
  | Pc.unlock ret => some (c.release t (th.finish ret))
  | _ => none

/-- Next atomic action of thread `t` inside `Wait()`. -/
def stepWait (c : Config) (t : Nat) (th : Thread) : Option Config :=
  match th.pc with
  | Pc.entry =>
    if c.count = 0 then some (c.setThread t (th.finish none))
    else some (c.setThread t (th.goto Pc.lockWait))
  | Pc.lockWait => c.acquire t th Pc.pred
  | Pc.pred =>
    if c.count = 0 then some (c.setThread t (th.goto (Pc.unlock none)))
    else some (c.setThread t (th.goto Pc.enterWait))
  | Pc.enterWait => some (c.release t (th.goto Pc.blocked))
  | Pc.woken _ => c.acquire t th Pc.pred
  | Pc.unlock ret => some (c.release t (th.finish ret))
  | _ => none

/-- Next atomic action of thread `t` inside `WaitFor(milliseconds)`.  The
deadline is not a state of the thread: its passing is the action `timeout`
of the environment. -/
def stepWaitFor (c : Config) (t : Nat) (th : Thread) : Option Config :=
  match th.pc with
  | Pc.entry =>
    if c.count = 0 then some (c.setThread t (th.finish (some true)))
    else some (c.setThread t (th.goto Pc.lockWait))
  | Pc.lockWait => c.acquire t th Pc.pred
  | Pc.pred =>
    if c.count = 0 then some (c.setThread t (th.goto (Pc.unlock (some true))))
    else some (c.setThread t (th.goto Pc.enterWait))
  | Pc.enterWait => some (c.release t (th.goto Pc.blocked))
  | Pc.woken timedOut => c.acquire t th (if timedOut then Pc.predTimeout else Pc.pred)
  | Pc.predTimeout => some (c.setThread t (th.goto (Pc.unlock (some (c.count == 0)))))
  | Pc.unlock ret => some (c.release t (th.finish ret))
  | _ => none

/-- Next atomic action of thread `t`; `none` when the thread does not exist,
has finished, is blocked, or the process has aborted. -/
def exec (assertOn : Bool) (c : Config) (t : Nat) : Option Config :=
  if c.aborted then none
  else
    match c.threads[t]? with
    | none => none
    | some th =>
      match th.ops with
      | [] => none
      | Op.Add n :: _ => stepAdd c t th n
      | Op.Done :: _ => stepDone assertOn c t th
      | Op.Wait :: _ => stepWait c t th
      | Op.WaitFor _ :: _ => stepWaitFor c t th

/-- Thread `t`, blocked on the condition variable, is unblocked by the
environment: spuriously (`timedOut = false`), or because the deadline of its
`wait_for` passed (`timedOut = true`, only inside `WaitFor`). -/
def unblock (c : Config) (t : Nat) (timedOut : Bool) : Option Config :=
  if c.aborted then none
  else
    match c.threads[t]? with
    | none => none
    | some th =>
      if th.pc = Pc.blocked then
        match th.ops with
        | Op.Wait :: _ =>
          if timedOut then none else some (c.setThread t (th.goto (Pc.woken false)))
        | Op.WaitFor _ :: _ => some (c.setThread t (th.goto (Pc.woken timedOut)))
        | _ => none
      else none

/-- What the scheduler or the environment does next. -/
inductive Action where
  /-- Thread `t` executes its next atomic action. -/
  | exec (t : Nat)
  /-- Thread `t` wakes up spuriously. -/
  | spurious (t : Nat)
  /-- The timed wait of thread `t` times out. -/
  | timeout (t : Nat)
  deriving DecidableEq, Repr

/-- One transition; `none` when the action is not enabled. -/
def step (assertOn : Bool) (c : Config) : Action → Option Config
  | Action.exec t => exec assertOn c t
  | Action.spurious t => unblock c t false
  | Action.timeout t => unblock c t true

/-- The state after a schedule; `none` when one of its actions is not
enabled at its turn. -/
def runSchedule (assertOn : Bool) : Config → List Action → Option Config
  | c, [] => some c
  | c, a :: as =>
    match step assertOn c a with
    | some c1 => runSchedule assertOn c1 as
    | none => none

/-- A thread that has not started the given calls. -/
def Thread.start (ops : List Op) : Thread :=
  { ops := ops, pc := Pc.entry, rets := [] }

/-- The initial state: counter as constructed, mutex free, threads at the
start of their calls. -/
def Config.init (initialCount : Nat) (threads : List (List Op)) : Config :=
  { count := (new initialCount).data.count, mutex := none,
    threads := threads.map Thread.start, aborted := false }

/-- Every thread has made all its calls. -/
def Config.finished (c : Config) : Prop :=
  ∀ th ∈ c.threads, th.ops = []

/-- A task of the stress scenario: `Add(1)`, then a scope that owns a
`DoneGuard` and makes no call on the wait-group; the destructor of the guard
makes the `Done()` call. -/
def guardedTask : List Op := [Op.Add 1, Op.Done]

/-- Number of `exec` actions in a schedule. -/
def execCount : List Action → Nat
  | [] => 0
  | Action.exec _ :: as => 1 + execCount as
  | _ :: as => execCount as

/-- Number of spurious wake-ups in a schedule. -/
def spuriousCount : List Action → Nat
  | [] => 0
  | Action.spurious _ :: as => 1 + spuriousCount as
  | _ :: as => spuriousCount as

/-- The schedule contains no timeout. -/
def noTimeout (sched : List Action) : Prop :=
  ∀ t, Action.timeout t ∉ sched

/-! ## Invariants of the stress scenario -/

/-- The decrement the thread still owes to the counter: 1 while it is inside
its last call, a `Done()`, and has not executed `--data->count`; 0
otherwise. -/
def Thread.owes (th : Thread) : Nat :=
  if th.ops = [Op.Done] ∧ (th.pc = Pc.entry ∨ th.pc = Pc.decrement) then 1 else 0

/-- Upper bound on the atomic actions a task still has to execute. -/
def Thread.remaining (th : Thread) : Nat :=
  match th.ops with
  | [] => 0
  | [_] =>
    match th.pc with
    | Pc.entry => 5
    | Pc.decrement => 4
    | Pc.lockNotify => 3
    | Pc.notify => 2
    | _ => 1
  | _ => 6

/-- The thread owns the mutex inside `Done`. -/
def Thread.notifying (th : Thread) : Prop :=
  th = ⟨[Op.Done], Pc.notify, []⟩ ∨ th = ⟨[Op.Done], Pc.unlock (some true), []⟩

/-- The states a task of the stress scenario goes through. -/
def Thread.isTask (th : Thread) : Prop :=
  th = ⟨[Op.Add 1, Op.Done], Pc.entry, []⟩ ∨ th = ⟨[Op.Done], Pc.entry, []⟩ ∨
  th = ⟨[Op.Done], Pc.decrement, []⟩ ∨ th = ⟨[Op.Done], Pc.lockNotify, []⟩ ∨
  th.notifying ∨ th = ⟨[], Pc.entry, [true]⟩ ∨ th = ⟨[], Pc.entry, [false]⟩

/-- Invariant of the stress scenario with `K` tasks from the counter `c`. -/
structure StressInv (c K : Nat) (cfg : Config) : Prop where
  running : cfg.aborted = false
  length_eq : cfg.threads.length = K
  tasks : ∀ th ∈ cfg.threads, th.isTask
  count_eq : cfg.count = c + (cfg.threads.map Thread.owes).sum
  owner : ∀ t, cfg.mutex = some t → ∃ th, cfg.threads[t]? = some th ∧ th.notifying

/-! ## Invariants of the hand-off scenario

Any number of threads wait, each in `Wait()` or in `WaitFor(ms)`, and one
thread calls `Done()`, on a counter at 1.  Thread 0 is the one that calls
`Done()`; thread `k + 1` is waiter `k`. -/

/-- The value a call returns on the path through the condition variable, when
no timeout occurs. -/
def Op.ret : Op → Option Bool
  | Op.WaitFor _ => some true
  | _ => none

/-- The returned values a thread has recorded after that call. -/
def Op.rets : Op → List Bool
  | Op.WaitFor _ => [true]
  | _ => []

/-- The positions of a waiter, numbered along its path. -/
def waiterAt (wop : Op) : Nat → Thread
  | 0 => ⟨[wop], Pc.entry, []⟩
  | 1 => ⟨[wop], Pc.lockWait, []⟩
  | 2 => ⟨[wop], Pc.pred, []⟩
  | 3 => ⟨[wop], Pc.enterWait, []⟩
  | 4 => ⟨[wop], Pc.blocked, []⟩
  | 5 => ⟨[wop], Pc.woken false, []⟩
  | 6 => ⟨[wop], Pc.unlock wop.ret, []⟩
  | _ => ⟨[], Pc.entry, wop.rets⟩

/-- The positions of the thread that calls `Done()`, numbered along its
path. -/
def donerAt : Nat → Thread
  | 0 => ⟨[Op.Done], Pc.entry, []⟩
  | 1 => ⟨[Op.Done], Pc.decrement, []⟩
  | 2 => ⟨[Op.Done], Pc.lockNotify, []⟩
  | 3 => ⟨[Op.Done], Pc.notify, []⟩
  | 4 => ⟨[Op.Done], Pc.unlock (some true), []⟩
  | _ => ⟨[], Pc.entry, [true]⟩

/-- The state of the hand-off scenario with waiter `k` at position `is[k]`,
the thread in `Done()` at position `j` and the mutex owned as `m` says: the
counter is 1 until the decrement. -/
def handoffState (waiters : List Op) (is : List Nat) (j : Nat) (m : Option Nat) : Config :=
  { count := if j ≤ 1 then 1 else 0,
    mutex := m,
    threads := donerAt j :: List.zipWith waiterAt waiters is,
    aborted := false }

/-- The pairs of positions a waiter and the thread in `Done()` can be at
together. -/
def handoffPhases : List (Nat × Nat) :=
  [(0, 0), (1, 0), (2, 0), (3, 0), (4, 0), (5, 0),
   (0, 1), (1, 1), (2, 1), (3, 1), (4, 1), (5, 1),
   (0, 2), (1, 2), (2, 2), (3, 2), (4, 2), (5, 2), (6, 2), (7, 2),
   (0, 3), (1, 3), (4, 3), (5, 3), (7, 3),
   (0, 4), (1, 4), (5, 4), (7, 4),
   (0, 5), (1, 5), (2, 5), (5, 5), (6, 5), (7, 5)]

/-- The waiter positions inside a critical section. -/
def holdsW (i : Nat) : Bool := i == 2 || i == 3 || i == 6

/-- The positions of `Done()` inside its critical section. -/
def holdsD (j : Nat) : Bool := j == 3 || j == 4

/-- Next position of a waiter at position `i` when it executes an action;
`free` tells whether the mutex is free; `none` when the waiter cannot
move. -/
def waiterMove (i j : Nat) (free : Bool) : Option Nat :=
  match i with
  | 0 => some (if j ≤ 1 then 1 else 7)
  | 1 => if free then some 2 else none
  | 2 => some (if j ≤ 1 then 3 else 6)
  | 3 => some 4
  | 5 => if free then some 2 else none
  | 6 => some 7
  | _ => none

/-- Owner of the mutex after waiter `k`, at position `i`, has moved. -/
def waiterMutex (i k : Nat) (m : Option Nat) : Option Nat :=
  match i with
  | 1 => some (k + 1)
  | 3 => none
  | 5 => some (k + 1)
  | 6 => none
  | _ => m

/-- Next position of the thread in `Done()` when it executes an action. -/
def donerMove (assertOn : Bool) (j : Nat) (free : Bool) : Option Nat :=
  match j with
  | 0 => some (if assertOn then 1 else 2)
  | 1 => some 2
  | 2 => if free then some 3 else none
  | 3 => some 4
  | 4 => some 5
  | _ => none

/-- Owner of the mutex after the thread in `Done()`, at position `j`, has
moved. -/
def donerMutex (j : Nat) (m : Option Nat) : Option Nat :=
  match j with
  | 2 => some 0
  | 4 => none
  | _ => m

/-- Position of a waiter after the action of `Done()` at position `j`: the
`notify_all` (position 3) moves a blocked waiter to the woken position. -/
def wakeAt (j i : Nat) : Nat :=
  if j = 3 ∧ i = 4 then 5 else i

/-- Potential of a waiter: every action of its own lowers it, a wake-up
raises it by 3. -/
def waiterRank : Nat → Nat
  | 0 => 6
  | 1 => 5
  | 2 => 4
  | 3 => 3
  | 4 => 2
  | 5 => 5
  | 6 => 1
  | _ => 0

/-- Potential of the thread in `Done()` beside `n` waiters: its `notify_all`
pays for the wake-up of every waiter. -/
def donerRank (n : Nat) : Nat → Nat
  | 0 => 5 + 3 * n
  | 1 => 4 + 3 * n
  | 2 => 3 + 3 * n
  | 3 => 2 + 3 * n
  | 4 => 1
  | _ => 0

/-- Actions a waiter needs to return once the counter is 0 and `Done()` has
returned. -/
def stepsLeft : Nat → Nat
  | 0 => 1
  | 1 => 3
  | 2 => 2
  | 5 => 3
  | 6 => 1
  | _ => 0

/-- Invariant of the hand-off scenario with `n` waiters, on the positions and
the owner of the mutex. -/
structure HandoffInv (n : Nat) (is : List Nat) (j : Nat) (m : Option Nat) : Prop where
  length_eq : is.length = n
  doner_le : j ≤ 5
  pairs : ∀ i ∈ is, (i, j) ∈ handoffPhases
  ownerD : holdsD j = true ↔ m = some 0
  ownerW : ∀ k i, is[k]? = some i → (holdsW i = true ↔ m = some (k + 1))
  valid : ∀ t, m = some t → t ≤ n

/-- What an action costs and what it may add to the potential. -/
def Action.cost : Action → Nat × Nat
  | Action.exec _ => (1, 0)
  | _ => (0, 3)

/-- The action is a timeout. -/
def Action.isTimeout : Action → Prop
  | Action.timeout _ => True
  | _ => False

end WaitGroup

/-! ## Theorems -/

namespace WaitGroup

theorem uintSize_eq : uintSize = 2 ^ 32 := by decide

theorem dec_mod_of_pos {c : Nat} (h0 : 0 < c) (hc : c < uintSize) :
    (c + uintSize - 1) % uintSize = c - 1 := by
  have h : c + uintSize - 1 = (c - 1) + uintSize := by omega
  rw [h, Nat.add_mod_right, Nat.mod_eq_of_lt (by omega)]

/-- On a counter in `1 .. 2^32 - 1` the assertion of `Done` holds and the
decrement does not wrap. -/
theorem Done_of_pos (assertOn : Bool) {c : Nat} (h0 : 0 < c) (hc : c < uintSize) :
    Done assertOn { count := c } =
      if c = 1 then
        { result := some true, data := { count := 0 },
          trace := [Event.lock, Event.notifyAll, Event.unlock] }
      else
        { result := some false, data := { count := c - 1 }, trace := [] } := by
  have hm := dec_mod_of_pos h0 hc
  have hc0 : c ≠ 0 := by omega
  by_cases h1 : c = 1
  · subst h1
    simp [Done, hm]
  · have h2 : c - 1 ≠ 0 := by omega
    simp [Done, hm, hc0, h1, h2]

/-- C2: on a counter `c > 0`, `Done()` returns (no abort, in both builds), it
returns `true` exactly when `c = 1` and `false` for every `c > 1`, and the
counter afterwards is `c - 1`. -/
theorem Done_returns_true_iff_one (assertOn : Bool) (c : Nat)
    (h0 : 0 < c) (hc : c < uintSize) :
    (∃ b, (Done assertOn (new c).data).result = some b ∧ (b = true ↔ c = 1)) ∧
    (1 < c → (Done assertOn (new c).data).result = some false) ∧
    (Done assertOn (new c).data).data.count = c - 1 := by
  rw [new, Done_of_pos assertOn h0 hc]
  by_cases h1 : c = 1
  · subst h1
    simp
  · have h3 : 1 < c := by omega
    simp [h1, h3]

theorem Done_returns_true_iff_one_witness :
    (∃ b, (Done true (new 1).data).result = some b ∧ (b = true ↔ 1 = 1)) ∧
    (1 < 1 → (Done true (new 1).data).result = some false) ∧
    (Done true (new 1).data).data.count = 1 - 1 :=
  Done_returns_true_iff_one true 1 (by decide) (by decide)

/-- C3, as stated, fails: in a build without `assert`, `Done()` on a counter
at 0 returns `false` and leaves the counter at `2^32 - 1`. -/
theorem Done_on_zero_wraps_without_assert :
    (Done false (new 0).data).result = some false ∧
    (Done false (new 0).data).data.count = 2 ^ 32 - 1 ∧
    (Done false (new 0).data).data.count ≠ 0 := by
  decide

/-- C3, amended: on a counter at 0, `Done()` in a build with `assert` aborts
before the decrement, leaving the counter at 0 and issuing no event; in a
build without `assert` it returns `false`, issues no event and leaves the
counter at `2^32 - 1`. -/
theorem Done_on_zero :
    Done true (new 0).data = { result := none, data := { count := 0 }, trace := [] } ∧
    Done false (new 0).data =
      { result := some false, data := { count := 2 ^ 32 - 1 }, trace := [] } := by
  decide

/-- C10: on a counter at 1, so that the decrement reaches 0, `Done()` returns
`true` and issues exactly lock, notify_all, unlock (one notify_all, inside
the critical section); on a counter above 1 it returns `false`, leaves the
counter one lower and issues no event; on a counter at 0 (abort, or wrap to
a nonzero value) it issues no event either.  Over every call the trace is
lock, notify_all, unlock exactly when the decrement was executed and left
0.  `Add(n)` and the constructor only store the counter and issue no
event. -/
theorem Done_notifies_exactly_on_zero (assertOn : Bool) (s : Data) (n c : Nat)
    (hs : s.count < uintSize) :
    (s.count = 1 →
      Done assertOn s =
        { result := some true, data := { count := 0 },
          trace := [Event.lock, Event.notifyAll, Event.unlock] }) ∧
    (1 < s.count →
      Done assertOn s =
        { result := some false, data := { count := s.count - 1 }, trace := [] }) ∧
    (s.count = 0 →
      (Done assertOn s).trace = [] ∧ (Done assertOn s).result ≠ some true) ∧
    (Done assertOn s).trace =
      (if (Done assertOn s).result.isSome = true ∧ (Done assertOn s).data.count = 0 then
        [Event.lock, Event.notifyAll, Event.unlock]
      else []) ∧
    (Done assertOn s).trace.count Event.notifyAll =
      (if (Done assertOn s).result = some true then 1 else 0) ∧
    Add s n =
      { result := some (), data := { count := (s.count + n) % uintSize }, trace := [] } ∧
    new c = { result := some (), data := { count := c }, trace := [] } := by
  obtain ⟨k⟩ := s
  simp only at hs
  refine ⟨?_, ?_, ?_, ?_, ?_, rfl, rfl⟩
  · intro h1
    simp only at h1
    subst h1
    rw [Done_of_pos assertOn (by decide) hs]
    simp
  · intro h1
    simp only at h1
    rw [Done_of_pos assertOn (by omega) hs]
    have : k ≠ 1 := by omega
    simp [this]
  · intro h0
    simp only at h0
    subst h0
    cases assertOn
    · exact ⟨by decide, by decide⟩
    · exact ⟨by decide, by decide⟩
  · by_cases ha : assertOn = true ∧ ¬ (k > 0)
    · simp only [Done, if_pos ha]
      simp
    · by_cases hz : (k + uintSize - 1) % uintSize = 0
      · simp only [Done, if_neg ha, if_pos hz]
        simp [hz]
      · simp only [Done, if_neg ha, if_neg hz]
        simp [hz]
  · by_cases ha : assertOn = true ∧ ¬ (k > 0)
    · simp only [Done, if_pos ha]
      simp
    · by_cases hz : (k + uintSize - 1) % uintSize = 0
      · simp only [Done, if_neg ha, if_pos hz]
        simp
      · simp only [Done, if_neg ha, if_neg hz]
        simp

theorem Done_notifies_exactly_on_zero_witness :
    (1 : Nat) < uintSize ∧
    Done true { count := 1 } =
      { result := some true, data := { count := 0 },
        trace := [Event.lock, Event.notifyAll, Event.unlock] } ∧
    (Done true { count := 1 }).trace.count Event.notifyAll = 1 :=
  ⟨by decide,
   (Done_notifies_exactly_on_zero true { count := 1 } 0 0 (by decide)).1 rfl,
   by
    have h := (Done_notifies_exactly_on_zero true { count := 1 } 0 0 (by decide)).2.2.2.2.1
    rw [h]
    decide⟩

/-- C6: on a counter at 0, `Wait()` returns and `WaitFor(ms)` returns `true`,
for every timeout and whatever the other threads do, with no event on the
mutex or the condition variable, after the single fast-path check, and with
the block unchanged. -/
theorem fast_path_on_zero (s : Data) (ms first : Nat) (wakes : List Wake)
    (h : s.count = 0) :
    Wait s first wakes =
      { status := some (), data := s, trace := [], checks := [0] } ∧
    WaitFor s ms first wakes =
      { status := some true, data := s, trace := [], checks := [0] } := by
  simp [Wait, WaitFor, h]

theorem fast_path_on_zero_witness :
    Wait (new 0).data 5 [{ elapsed := 1, count := 3 }] =
      { status := some (), data := (new 0).data, trace := [], checks := [0] } ∧
    WaitFor (new 0).data 7 5 [{ elapsed := 1, count := 3 }] =
      { status := some true, data := (new 0).data, trace := [], checks := [0] } :=
  fast_path_on_zero (new 0).data 7 5 [{ elapsed := 1, count := 3 }] rfl

theorem getLast?_cons_of_getLast? {α : Type} (a : α) (l : List α) (x : α)
    (h : l.getLast? = some x) : (a :: l).getLast? = some x := by
  cases l with
  | nil => simp at h
  | cons b t => simpa [List.getLast?_cons_cons] using h

theorem cvWaitLoop_last_check (wakes : List Wake)
    (h : (cvWaitLoop wakes).status = some ()) :
    (cvWaitLoop wakes).checks.getLast? = some 0 := by
  induction wakes with
  | nil => simp [cvWaitLoop] at h
  | cons w ws ih =>
    unfold cvWaitLoop at h ⊢
    by_cases hw : w.count = 0
    · simp [hw]
    · simp only [hw, if_false] at h ⊢
      exact getLast?_cons_of_getLast? _ _ _ (ih h)

theorem cvWaitForLoop_last_check (ms : Nat) (wakes : List Wake) (b : Bool)
    (h : (cvWaitForLoop ms wakes).status = some b) :
    (cvWaitForLoop ms wakes).checks.getLast? = some 0 ↔ b = true := by
  induction wakes with
  | nil => simp [cvWaitForLoop] at h
  | cons w ws ih =>
    unfold cvWaitForLoop at h ⊢
    by_cases ht : ms ≤ w.elapsed
    · simp only [ht, if_true] at h ⊢
      simp at h
      simp [← h]
    · simp only [ht, if_false] at h ⊢
      by_cases hw : w.count = 0
      · simp only [hw, if_true] at h ⊢
        simp at h
        simp [← h]
      · simp only [hw, if_false] at h ⊢
        have ih1 := ih h
        cases hc : (cvWaitForLoop ms ws).checks with
        | nil =>
          cases ws with
          | nil => simp [cvWaitForLoop] at h
          | cons v vs =>
            unfold cvWaitForLoop at hc
            split at hc
            · simp at hc
            · split at hc <;> simp at hc
        | cons x xs =>
          rw [hc] at ih1
          rw [List.getLast?_cons_cons]
          exact ih1

/-- C4: `Wait()` returns only after a check that read 0, and `WaitFor(ms)`
returns `true` exactly when the last check it made read 0, for every counter
value at the call, every value read under the lock and every sequence of
wake-ups (spurious, notified or timed out). -/
theorem wait_returns_only_on_zero (s : Data) (ms first : Nat) (wakes : List Wake) :
    ((Wait s first wakes).status = some () →
      (Wait s first wakes).checks.getLast? = some 0) ∧
    (∀ b, (WaitFor s ms first wakes).status = some b →
      (b = true ↔ (WaitFor s ms first wakes).checks.getLast? = some 0)) := by
  constructor
  · intro h
    unfold Wait at h ⊢
    by_cases h0 : s.count = 0
    · simp [h0]
    · by_cases h1 : first = 0
      · simp [h0, h1]
      · simp only [h0, h1, if_false] at h ⊢
        exact getLast?_cons_of_getLast? _ _ _
          (getLast?_cons_of_getLast? _ _ _ (cvWaitLoop_last_check wakes h))
  · intro b h
    unfold WaitFor at h ⊢
    by_cases h0 : s.count = 0
    · simp only [h0, if_true] at h ⊢
      simp at h
      simp [← h]
    · by_cases h1 : first = 0
      · simp only [h0, h1, if_true, if_false] at h ⊢
        simp at h
        simp [← h]
      · simp only [h0, h1, if_false] at h ⊢
        have hl := cvWaitForLoop_last_check ms wakes b h
        cases hc : (cvWaitForLoop ms wakes).checks with
        | nil =>
          cases wakes with
          | nil => simp [cvWaitForLoop] at h
          | cons v vs =>
            unfold cvWaitForLoop at hc
            split at hc
            · simp at hc
            · split at hc <;> simp at hc
        | cons x xs =>
          rw [hc] at hl
          simp only [List.getLast?_cons_cons]
          exact hl.symm

theorem wait_returns_only_on_zero_witness :
    ((Wait { count := 2 } 1 [⟨3, 1⟩, ⟨6, 0⟩]).status = some () ∧
      (Wait { count := 2 } 1 [⟨3, 1⟩, ⟨6, 0⟩]).checks.getLast? = some 0) ∧
    ((WaitFor { count := 2 } 9 1 [⟨3, 1⟩, ⟨6, 0⟩]).status = some true ∧
      (true = true ↔
        (WaitFor { count := 2 } 9 1 [⟨3, 1⟩, ⟨6, 0⟩]).checks.getLast? = some 0)) :=
  ⟨⟨by decide,
    (wait_returns_only_on_zero { count := 2 } 9 1 [⟨3, 1⟩, ⟨6, 0⟩]).1 (by decide)⟩,
   ⟨by decide,
    (wait_returns_only_on_zero { count := 2 } 9 1 [⟨3, 1⟩, ⟨6, 0⟩]).2 true (by decide)⟩⟩

theorem cvWaitForLoop_nonzero (ms : Nat) (wakes : List Wake)
    (hw : ∀ w ∈ wakes, w.count ≠ 0) :
    (cvWaitForLoop ms wakes).status ≠ some true ∧
    ((∃ w ∈ wakes, ms ≤ w.elapsed) → (cvWaitForLoop ms wakes).status = some false) := by
  induction wakes with
  | nil => simp [cvWaitForLoop]
  | cons w ws ih =>
    have hw0 : w.count ≠ 0 := hw w (List.mem_cons_self _ _)
    have ih1 := ih (fun v hv => hw v (List.mem_cons_of_mem _ hv))
    unfold cvWaitForLoop
    by_cases ht : ms ≤ w.elapsed
    · simp [ht, hw0]
    · simp only [ht, hw0, if_false]
      refine ⟨ih1.1, ?_⟩
      rintro ⟨v, hv, hve⟩
      rcases List.mem_cons.mp hv with rfl | hv1
      · exact absurd hve ht
      · exact ih1.2 ⟨v, hv1, hve⟩

/-- C5: when every check of the call reads a nonzero counter, `WaitFor(ms)`
never returns `true`, and it returns `false` as soon as a wait returns at or
after the deadline; for `ms = 0` the first wait already does, so the call
returns `false` after one wait. -/
theorem WaitFor_nonzero_returns_false (s : Data) (ms first : Nat) (wakes : List Wake)
    (hs : s.count ≠ 0) (hf : first ≠ 0) (hw : ∀ w ∈ wakes, w.count ≠ 0) :
    (WaitFor s ms first wakes).status ≠ some true ∧
    ((∃ w ∈ wakes, ms ≤ w.elapsed) → (WaitFor s ms first wakes).status = some false) ∧
    (ms = 0 → wakes ≠ [] →
      (WaitFor s ms first wakes).status = some false ∧
      (WaitFor s ms first wakes).trace = [Event.lock, Event.wait, Event.unlock]) := by
  have h := cvWaitForLoop_nonzero ms wakes hw
  refine ⟨?_, ?_, ?_⟩
  · simp only [WaitFor, hs, hf, if_false]
    exact h.1
  · simp only [WaitFor, hs, hf, if_false]
    exact h.2
  · intro h0 hne
    subst h0
    cases wakes with
    | nil => exact absurd rfl hne
    | cons w ws =>
      have hw0 : w.count ≠ 0 := hw w (List.mem_cons_self _ _)
      simp [WaitFor, hs, hf, cvWaitForLoop, hw0, unlockIfReturned]

theorem WaitFor_nonzero_returns_false_witness :
    (WaitFor { count := 2 } 0 2 [⟨0, 2⟩, ⟨1, 2⟩]).status ≠ some true ∧
    ((∃ w ∈ [(⟨0, 2⟩ : Wake), ⟨1, 2⟩], 0 ≤ w.elapsed) →
      (WaitFor { count := 2 } 0 2 [⟨0, 2⟩, ⟨1, 2⟩]).status = some false) ∧
    (0 = 0 → [(⟨0, 2⟩ : Wake), ⟨1, 2⟩] ≠ [] →
      (WaitFor { count := 2 } 0 2 [⟨0, 2⟩, ⟨1, 2⟩]).status = some false ∧
      (WaitFor { count := 2 } 0 2 [⟨0, 2⟩, ⟨1, 2⟩]).trace =
        [Event.lock, Event.wait, Event.unlock]) :=
  WaitFor_nonzero_returns_false { count := 2 } 0 2 [⟨0, 2⟩, ⟨1, 2⟩]
    (by decide) (by decide) (by decide)

/-- C7: on a counter `N >= 1`, constructing a `DoneGuard` leaves the counter at
`N`; when the scope of the guard exits, on whichever path, after a body that
leaves the counter at `N`, the destructor has run `Done()` once: the scope
ends in the outcome of one `Done()` on the block, which returns, and the
counter is `N - 1`. -/
theorem DoneGuard_decrements_once (assertOn : Bool) (N : Nat) (body : Data → Data × Exit)
    (h1 : 1 ≤ N) (hN : N < uintSize) (hb : (body { count := N }).1.count = N) :
    (DoneGuard.new { count := N }).count = N ∧
    (guardedScope assertOn body { count := N }).1 = Done assertOn { count := N } ∧
    (guardedScope assertOn body { count := N }).1.result.isSome = true ∧
    (guardedScope assertOn body { count := N }).1.data.count = N - 1 ∧
    (guardedScope assertOn body { count := N }).2 = (body { count := N }).2 := by
  have hd := Done_of_pos assertOn h1 hN
  have hs : (body { count := N }).1 = { count := N } := by
    cases hx : (body { count := N }).1
    rw [hx] at hb
    simp at hb
    simp [hb]
  have hg : guardedScope assertOn body { count := N } =
      (Done assertOn { count := N }, (body { count := N }).2) := by
    unfold guardedScope DoneGuard.new DoneGuard.destroy
    simp only [hs]
    cases (body { count := N }).2 <;> rfl
  rw [hg, hd]
  refine ⟨rfl, rfl, ?_, ?_, rfl⟩
  · by_cases hN1 : N = 1 <;> simp [hN1]
  · by_cases hN1 : N = 1 <;> simp [hN1]

theorem DoneGuard_decrements_once_witness :
    (DoneGuard.new { count := 3 }).count = 3 ∧
    (guardedScope true (fun s => (s, Exit.exception)) { count := 3 }).1 =
      Done true { count := 3 } ∧
    (guardedScope true (fun s => (s, Exit.exception)) { count := 3 }).1.result.isSome = true ∧
    (guardedScope true (fun s => (s, Exit.exception)) { count := 3 }).1.data.count = 3 - 1 ∧
    (guardedScope true (fun s => (s, Exit.exception)) { count := 3 }).2 =
      ((fun s => (s, Exit.exception)) ({ count := 3 } : Data)).2 :=
  DoneGuard_decrements_once true 3 (fun s => (s, Exit.exception))
    (by decide) (by decide) rfl

theorem run_balanced (assertOn : Bool) (calls : List Call) :
    ∀ c, Balanced c calls →
      run assertOn { count := c } calls = some { count := c + adds calls - dones calls } := by
  induction calls with
  | nil => intro c _; simp [run, adds, dones]
  | cons x xs ih =>
    intro c h
    have hc : c < uintSize := by
      have := h 0 (Nat.zero_le _)
      simpa [adds, dones] using this.2
    cases x with
    | Add n =>
      have h1 := h 1 (by simp)
      simp [adds, dones] at h1
      have hb : Balanced (c + n) xs := by
        intro k hk
        have := h (k + 1) (by simpa using hk)
        simp only [List.take_succ_cons, adds, dones] at this
        constructor <;> omega
      have hm : (c + n) % uintSize = c + n := Nat.mod_eq_of_lt h1
      simp only [run, call, Add, hm]
      rw [ih (c + n) hb]
      simp only [adds, dones]
      congr 2
      omega
    | Done =>
      have h1 := h 1 (by simp)
      simp [adds, dones] at h1
      have hpos : 0 < c := by omega
      have hb : Balanced (c - 1) xs := by
        intro k hk
        have := h (k + 1) (by simpa using hk)
        simp only [List.take_succ_cons, adds, dones] at this
        constructor <;> omega
      have hd := Done_of_pos assertOn hpos hc
      have hcall : call assertOn { count := c } Call.Done = some { count := c - 1 } := by
        unfold call
        rw [hd]
        by_cases hc1 : c = 1 <;> simp [hc1]
      simp only [run, hcall]
      rw [ih (c - 1) hb]
      have hk := h (xs.length + 1) (by simp)
      simp only [List.take_succ_cons, List.take_length, adds, dones] at hk
      simp only [adds, dones]
      congr 2
      omega

theorem Balanced_take (c : Nat) (calls : List Call) (h : Balanced c calls) (k : Nat) :
    Balanced c (calls.take k) := by
  intro j hj
  rw [List.take_take]
  have hj1 : j ≤ k := by
    rw [List.length_take] at hj
    omega
  have hj2 : j ≤ calls.length := by
    rw [List.length_take] at hj
    omega
  rw [Nat.min_eq_left hj1]
  exact h j hj2

/-- C1, as stated, fails: from the initial count `2^32 - 1`, the single call
`Add(1)` meets the requirement on the `Done` calls, yet the counter
afterwards is 0 and not `2^32 - 1 + 1`. -/
theorem counter_wraps_on_Add :
    (∀ k, k ≤ [Call.Add 1].length →
      dones ([Call.Add 1].take k) ≤ (2 ^ 32 - 1) + adds ([Call.Add 1].take k)) ∧
    run true (new (2 ^ 32 - 1)).data [Call.Add 1] = some { count := 0 } ∧
    ((0 : Nat) : Int) ≠ ((2 ^ 32 - 1 : Nat) : Int) + (adds [Call.Add 1] : Int)
      - (dones [Call.Add 1] : Int) := by
  refine ⟨?_, by decide, by decide⟩
  intro k hk
  have hk1 : k = 0 ∨ k = 1 := by
    simp at hk
    omega
  rcases hk1 with rfl | rfl <;> decide

/-- C1, amended: for every initial count `c` and every sequence of `Add(n)`
and `Done()` calls such that after each prefix the number of `Done` calls is
at most `c` plus the amounts added and the balance is below `2^32`, no call
aborts (in either build) and after each prefix the counter equals
`c + (amounts added) - (number of Done calls)`, which is never negative. -/
theorem counter_eq_balance (assertOn : Bool) (c : Nat) (calls : List Call)
    (h : ∀ k, k ≤ calls.length →
      dones (calls.take k) ≤ c + adds (calls.take k) ∧
      c + adds (calls.take k) - dones (calls.take k) < uintSize) :
    ∀ k, k ≤ calls.length →
      ∃ s, run assertOn (new c).data (calls.take k) = some s ∧
        (s.count : Int) = (c : Int) + (adds (calls.take k) : Int) - (dones (calls.take k) : Int) ∧
        (0 : Int) ≤ (c : Int) + (adds (calls.take k) : Int) - (dones (calls.take k) : Int) := by
  intro k hk
  have hb := Balanced_take c calls h k
  refine ⟨_, run_balanced assertOn (calls.take k) c hb, ?_, ?_⟩
  · have := (h k hk).1
    simp only
    omega
  · have := (h k hk).1
    omega

theorem counter_eq_balance_witness :
    (∀ k, k ≤ [Call.Add 2, Call.Done, Call.Done, Call.Add 1, Call.Done].length →
      dones ([Call.Add 2, Call.Done, Call.Done, Call.Add 1, Call.Done].take k) ≤
        0 + adds ([Call.Add 2, Call.Done, Call.Done, Call.Add 1, Call.Done].take k) ∧
      0 + adds ([Call.Add 2, Call.Done, Call.Done, Call.Add 1, Call.Done].take k)
        - dones ([Call.Add 2, Call.Done, Call.Done, Call.Add 1, Call.Done].take k) < uintSize) ∧
    ∃ s, run true (new 0).data
        ([Call.Add 2, Call.Done, Call.Done, Call.Add 1, Call.Done].take 5) = some s ∧
      (s.count : Int) = ((0 : Nat) : Int)
        + (adds ([Call.Add 2, Call.Done, Call.Done, Call.Add 1, Call.Done].take 5) : Int)
        - (dones ([Call.Add 2, Call.Done, Call.Done, Call.Add 1, Call.Done].take 5) : Int) ∧
      (0 : Int) ≤ ((0 : Nat) : Int)
        + (adds ([Call.Add 2, Call.Done, Call.Done, Call.Add 1, Call.Done].take 5) : Int)
        - (dones ([Call.Add 2, Call.Done, Call.Done, Call.Add 1, Call.Done].take 5) : Int) :=
  have hyp : ∀ k, k ≤ [Call.Add 2, Call.Done, Call.Done, Call.Add 1, Call.Done].length →
      dones ([Call.Add 2, Call.Done, Call.Done, Call.Add 1, Call.Done].take k) ≤
        0 + adds ([Call.Add 2, Call.Done, Call.Done, Call.Add 1, Call.Done].take k) ∧
      0 + adds ([Call.Add 2, Call.Done, Call.Done, Call.Add 1, Call.Done].take k)
        - dones ([Call.Add 2, Call.Done, Call.Done, Call.Add 1, Call.Done].take k) < uintSize := by
    intro k hk
    have hk1 : k = 0 ∨ k = 1 ∨ k = 2 ∨ k = 3 ∨ k = 4 ∨ k = 5 := by
      simp at hk
      omega
    rcases hk1 with rfl | rfl | rfl | rfl | rfl | rfl <;> decide
  ⟨hyp, counter_eq_balance true 0 [Call.Add 2, Call.Done, Call.Done, Call.Add 1, Call.Done]
    hyp 5 (by decide)⟩


theorem sum_map_set {α : Type} (f : α → Nat) :
    ∀ (l : List α) (t : Nat) (a x : α), l[t]? = some a →
      ((l.set t x).map f).sum + f a = (l.map f).sum + f x := by
  intro l
  induction l with
  | nil => intro t a x h; simp at h
  | cons b bs ih =>
    intro t a x h
    cases t with
    | zero =>
      simp at h
      subst h
      simp only [List.set_cons_zero, List.map_cons, List.sum_cons]
      omega
    | succ t =>
      simp at h
      have := ih t a x h
      simp only [List.set_cons_succ, List.map_cons, List.sum_cons]
      omega

theorem sum_map_le_length {α : Type} (f : α → Nat) (hf : ∀ x, f x ≤ 1) :
    ∀ (l : List α), (l.map f).sum ≤ l.length := by
  intro l
  induction l with
  | nil => simp
  | cons b bs ih =>
    have := hf b
    simp
    omega

theorem Thread.owes_le_one (th : Thread) : th.owes ≤ 1 := by
  unfold Thread.owes
  split <;> omega

theorem map_notified_of_isTask (l : List Thread) (h : ∀ th ∈ l, th.isTask) :
    l.map Thread.notified = l := by
  induction l with
  | nil => rfl
  | cons b bs ih =>
    have hb := h b (List.mem_cons_self _ _)
    have hbs := ih (fun th hth => h th (List.mem_cons_of_mem _ hth))
    rw [List.map_cons, hbs]
    congr 1
    rcases hb with rfl | rfl | rfl | rfl | (rfl | rfl) | rfl | rfl <;> rfl

theorem StressInv.init (c K : Nat) :
    StressInv c K (Config.init c (List.replicate K guardedTask)) := by
  refine ⟨rfl, by simp [Config.init], ?_, ?_, ?_⟩
  · intro th hth
    simp [Config.init] at hth
    rw [hth.2]
    exact Or.inl rfl
  · have : Thread.owes (Thread.start guardedTask) = 0 := by decide
    simp [Config.init, new, this]
  · intro t ht
    simp [Config.init] at ht

/-- Replacing one task by its next state keeps the invariant. -/
theorem StressInv.update {c K : Nat} {cfg : Config} (hinv : StressInv c K cfg)
    {t : Nat} {th th1 : Thread} (ht : cfg.threads[t]? = some th) (hok : th1.isTask)
    (n : Nat) (m : Option Nat) (hn : n + th.owes = cfg.count + th1.owes)
    (hm : m = none ∨ (m = some t ∧ th1.notifying) ∨ (m = cfg.mutex ∧ (th.notifying → th1.notifying))) :
    StressInv c K { count := n, mutex := m, threads := cfg.threads.set t th1, aborted := false } := by
  have hlt : t < cfg.threads.length := by
    rcases Nat.lt_or_ge t cfg.threads.length with h | h
    · exact h
    · rw [List.getElem?_eq_none h] at ht
      cases ht
  refine ⟨rfl, by simp [hinv.length_eq], ?_, ?_, ?_⟩
  · intro x hx
    rcases List.mem_or_eq_of_mem_set hx with h | h
    · exact hinv.tasks x h
    · rw [h]; exact hok
  · have hs := sum_map_set Thread.owes cfg.threads t th th1 ht
    have hc := hinv.count_eq
    simp only
    omega
  · intro t0 ht0
    simp only at ht0 ⊢
    rcases hm with h | ⟨h, hh⟩ | ⟨h, hh⟩
    · rw [h] at ht0; cases ht0
    · rw [h] at ht0
      cases ht0
      exact ⟨th1, by simp [List.getElem?_set, hlt], hh⟩
    · rw [h] at ht0
      obtain ⟨x, hx, hxn⟩ := hinv.owner t0 ht0
      by_cases he : t = t0
      · subst he
        rw [ht] at hx
        cases hx
        exact ⟨th1, by simp [List.getElem?_set, hlt], hh hxn⟩
      · exact ⟨x, by simp [List.getElem?_set, he, hx], hxn⟩

/-- Bounds the invariant gives on the counter, seen from one task. -/
theorem StressInv.bounds {c K : Nat} {cfg : Config} (hinv : StressInv c K cfg)
    {t : Nat} {th : Thread} (ht : cfg.threads[t]? = some th) :
    c + th.owes ≤ cfg.count ∧ cfg.count + 1 ≤ c + K + th.owes := by
  have h0 := sum_map_set Thread.owes cfg.threads t th ⟨[], Pc.entry, []⟩ ht
  have h1 := sum_map_set Thread.owes cfg.threads t th ⟨[Op.Done], Pc.entry, []⟩ ht
  have hl := sum_map_le_length Thread.owes Thread.owes_le_one
    (cfg.threads.set t ⟨[Op.Done], Pc.entry, []⟩)
  have e0 : Thread.owes ⟨[], Pc.entry, []⟩ = 0 := by decide
  have e1 : Thread.owes ⟨[Op.Done], Pc.entry, []⟩ = 1 := by decide
  rw [e0] at h0
  rw [e1] at h1
  rw [List.length_set, hinv.length_eq] at hl
  have hc := hinv.count_eq
  omega

theorem StressInv.decrement {c K : Nat} (hK : c + K < uintSize) {cfg : Config}
    (hinv : StressInv c K cfg) {t : Nat} {th : Thread} (ht : cfg.threads[t]? = some th)
    (hth : th = ⟨[Op.Done], Pc.entry, []⟩ ∨ th = ⟨[Op.Done], Pc.decrement, []⟩) :
    StressInv c K (stepDecrement cfg t th) ∧
    ((stepDecrement cfg t th).threads.map Thread.remaining).sum + 1 ≤
      (cfg.threads.map Thread.remaining).sum := by
  have hrun := hinv.running
  have hb := hinv.bounds ht
  have hrem := fun x => sum_map_set Thread.remaining cfg.threads t th x ht
  have ho : th.owes = 1 := by rcases hth with rfl | rfl <;> decide
  have hr : 4 ≤ th.remaining := by rcases hth with rfl | rfl <;> decide
  have hn : ¬ th.notifying := by
    rcases hth with rfl | rfl <;> intro hn <;> rcases hn with hn | hn <;> cases hn
  rw [ho] at hb
  have hm : (cfg.count + uintSize - 1) % uintSize = cfg.count - 1 :=
    dec_mod_of_pos (by omega) (by omega)
  unfold stepDecrement
  simp only [hm, hrun]
  by_cases hz : cfg.count - 1 = 0
  · simp only [hz, if_true]
    have hg : th.goto Pc.lockNotify = ⟨[Op.Done], Pc.lockNotify, []⟩ := by
      rcases hth with rfl | rfl <;> rfl
    rw [hg]
    refine ⟨hinv.update ht (Or.inr (Or.inr (Or.inr (Or.inl rfl)))) _ _ ?_
      (Or.inr (Or.inr ⟨rfl, fun h => absurd h hn⟩)), ?_⟩
    · rw [ho]
      simp [Thread.owes]
      omega
    · have := hrem ⟨[Op.Done], Pc.lockNotify, []⟩
      have e : Thread.remaining ⟨[Op.Done], Pc.lockNotify, []⟩ = 3 := rfl
      simp only [e] at this ⊢
      omega
  · simp only [hz, if_false]
    have hg : th.finish (some false) = ⟨[], Pc.entry, [false]⟩ := by
      rcases hth with rfl | rfl <;> rfl
    rw [hg]
    refine ⟨hinv.update ht (Or.inr (Or.inr (Or.inr (Or.inr (Or.inr (Or.inr rfl)))))) _ _ ?_
      (Or.inr (Or.inr ⟨rfl, fun h => absurd h hn⟩)), ?_⟩
    · rw [ho]
      simp [Thread.owes]
      omega
    · have := hrem ⟨[], Pc.entry, [false]⟩
      have e : Thread.remaining ⟨[], Pc.entry, [false]⟩ = 0 := rfl
      simp only [e] at this ⊢
      omega

theorem StressInv.exec_step {c K : Nat} (hK : c + K < uintSize) {cfg cfg1 : Config}
    (hinv : StressInv c K cfg) (assertOn : Bool) (t : Nat)
    (h : exec assertOn cfg t = some cfg1) :
    StressInv c K cfg1 ∧
    (cfg1.threads.map Thread.remaining).sum + 1 ≤ (cfg.threads.map Thread.remaining).sum := by
  have hrun := hinv.running
  unfold exec at h
  simp only [hrun, Bool.false_eq_true, if_false] at h
  cases ht : cfg.threads[t]? with
  | none => simp [ht] at h
  | some th =>
    simp only [ht] at h
    have hb := hinv.bounds ht
    have hrem := fun x => sum_map_set Thread.remaining cfg.threads t th x ht
    have htask := hinv.tasks th (List.mem_iff_getElem?.mpr ⟨t, ht⟩)
    rcases htask with rfl | rfl | rfl | rfl | (rfl | rfl) | rfl | rfl
    · -- `Add(1)`
      have e : Thread.owes ⟨[Op.Add 1, Op.Done], Pc.entry, []⟩ = 0 := by decide
      rw [e] at hb
      have hm : (cfg.count + 1) % uintSize = cfg.count + 1 := Nat.mod_eq_of_lt (by omega)
      simp only [stepAdd, Thread.finish, List.tail_cons, hm, hrun, Option.some.injEq] at h
      subst h
      refine ⟨hinv.update ht (Or.inr (Or.inl rfl)) _ _ ?_ (Or.inr (Or.inr ⟨rfl, ?_⟩)), ?_⟩
      · simp [Thread.owes]
      · intro hn; rcases hn with hn | hn <;> cases hn
      · have := hrem ⟨[Op.Done], Pc.entry, []⟩
        simp only [Thread.remaining] at this ⊢
        omega
    · -- `Done`: the assertion, or the decrement in a build without it
      have e : Thread.owes ⟨[Op.Done], Pc.entry, []⟩ = 1 := by decide
      rw [e] at hb
      have hpos : cfg.count > 0 := by omega
      cases assertOn with
      | true =>
        simp only [stepDone, if_true, hpos, Config.setThread, Thread.goto, hrun,
          Option.some.injEq] at h
        subst h
        refine ⟨hinv.update ht (Or.inr (Or.inr (Or.inl rfl))) _ _ ?_
          (Or.inr (Or.inr ⟨rfl, ?_⟩)), ?_⟩
        · simp [Thread.owes]
        · intro hn; rcases hn with hn | hn <;> cases hn
        · have := hrem ⟨[Op.Done], Pc.decrement, []⟩
          simp only [Thread.remaining] at this ⊢
          omega
      | false =>
        simp only [stepDone, Bool.false_eq_true, if_false, Option.some.injEq] at h
        subst h
        exact hinv.decrement hK ht (Or.inl rfl)
    · -- `Done`: the decrement after the assertion
      simp only [stepDone, Option.some.injEq] at h
      subst h
      exact hinv.decrement hK ht (Or.inr rfl)
    · -- `Done`: acquiring the mutex
      cases hmx : cfg.mutex with
      | some o => simp [stepDone, Config.acquire, hmx] at h
      | none =>
        simp only [stepDone, Config.acquire, hmx, Thread.goto, hrun, Option.some.injEq] at h
        subst h
        have hc : cfg.count + Thread.owes ⟨[Op.Done], Pc.lockNotify, []⟩ =
            cfg.count + Thread.owes ⟨[Op.Done], Pc.notify, []⟩ := by simp [Thread.owes]
        refine ⟨hinv.update ht (Or.inr (Or.inr (Or.inr (Or.inr (Or.inl (Or.inl rfl))))))
          _ _ hc (Or.inr (Or.inl ⟨rfl, Or.inl rfl⟩)), ?_⟩
        have := hrem ⟨[Op.Done], Pc.notify, []⟩
        simp only [Thread.remaining] at this ⊢
        omega
    · -- `Done`: `notify_all`
      simp only [stepDone, map_notified_of_isTask _ hinv.tasks, Thread.goto, hrun,
        Option.some.injEq] at h
      subst h
      have hc : cfg.count + Thread.owes ⟨[Op.Done], Pc.notify, []⟩ =
          cfg.count + Thread.owes ⟨[Op.Done], Pc.unlock (some true), []⟩ := by
        simp [Thread.owes]
      refine ⟨hinv.update ht (Or.inr (Or.inr (Or.inr (Or.inr (Or.inl (Or.inr rfl))))))
        _ _ hc (Or.inr (Or.inr ⟨rfl, fun _ => Or.inr rfl⟩)), ?_⟩
      have := hrem ⟨[Op.Done], Pc.unlock (some true), []⟩
      simp only [Thread.remaining] at this ⊢
      omega
    · -- `Done`: releasing the mutex and returning `true`
      simp only [stepDone, Config.release, Thread.finish, List.tail_cons, List.nil_append,
        hrun, Option.some.injEq] at h
      subst h
      have hc : cfg.count + Thread.owes ⟨[Op.Done], Pc.unlock (some true), []⟩ =
          cfg.count + Thread.owes ⟨[], Pc.entry, [true]⟩ := by simp [Thread.owes]
      refine ⟨hinv.update ht (Or.inr (Or.inr (Or.inr (Or.inr (Or.inr (Or.inl rfl))))))
        _ _ hc (Or.inl rfl), ?_⟩
      have := hrem ⟨[], Pc.entry, [true]⟩
      simp only [Thread.remaining] at this ⊢
      omega
    · simp at h
    · simp at h

theorem StressInv.unblock_none {c K : Nat} {cfg : Config} (hinv : StressInv c K cfg)
    (t : Nat) (b : Bool) : unblock cfg t b = none := by
  unfold unblock
  simp only [hinv.running, Bool.false_eq_true, if_false]
  cases ht : cfg.threads[t]? with
  | none => rfl
  | some th =>
    have htask := hinv.tasks th (List.mem_iff_getElem?.mpr ⟨t, ht⟩)
    rcases htask with rfl | rfl | rfl | rfl | (rfl | rfl) | rfl | rfl <;> simp

theorem StressInv.step {c K : Nat} (hK : c + K < uintSize) {cfg cfg1 : Config}
    (hinv : StressInv c K cfg) (assertOn : Bool) (a : Action)
    (h : step assertOn cfg a = some cfg1) :
    StressInv c K cfg1 ∧
    (cfg1.threads.map Thread.remaining).sum + 1 ≤ (cfg.threads.map Thread.remaining).sum := by
  cases a with
  | exec t => exact hinv.exec_step hK assertOn t h
  | spurious t =>
    simp only [WaitGroup.step, hinv.unblock_none] at h
    cases h
  | timeout t =>
    simp only [WaitGroup.step, hinv.unblock_none] at h
    cases h

theorem StressInv.run {c K : Nat} (hK : c + K < uintSize) (assertOn : Bool)
    (sched : List Action) :
    ∀ cfg cfg1 : Config, StressInv c K cfg → runSchedule assertOn cfg sched = some cfg1 →
      StressInv c K cfg1 ∧
      (cfg1.threads.map Thread.remaining).sum + sched.length ≤
        (cfg.threads.map Thread.remaining).sum := by
  induction sched with
  | nil =>
    intro cfg cfg1 hinv h
    simp only [runSchedule, Option.some.injEq] at h
    subst h
    exact ⟨hinv, by simp⟩
  | cons a as ih =>
    intro cfg cfg1 hinv h
    unfold runSchedule at h
    cases hs : WaitGroup.step assertOn cfg a with
    | none => simp [hs] at h
    | some c1 =>
      simp only [hs] at h
      have h1 := hinv.step hK assertOn a hs
      have h2 := ih c1 cfg1 h1.1 h
      refine ⟨h2.1, ?_⟩
      simp only [List.length_cons]
      omega

theorem sum_map_eq_zero {α : Type} (f : α → Nat) (l : List α) (h : ∀ x ∈ l, f x = 0) :
    (l.map f).sum = 0 := by
  induction l with
  | nil => rfl
  | cons b bs ih =>
    simp only [List.map_cons, List.sum_cons, h b (List.mem_cons_self _ _),
      ih (fun x hx => h x (List.mem_cons_of_mem _ hx))]

theorem StressInv.progress {c K : Nat} {cfg : Config} (hinv : StressInv c K cfg)
    (assertOn : Bool) (hnf : ¬ cfg.finished) :
    ∃ t, (exec assertOn cfg t).isSome = true := by
  have hrun := hinv.running
  unfold Config.finished at hnf
  push_neg at hnf
  obtain ⟨th, hmem, hops⟩ := hnf
  obtain ⟨t, ht⟩ := List.mem_iff_getElem?.mp hmem
  have hown : ∀ o x, cfg.threads[o]? = some x → x.notifying →
      (exec assertOn cfg o).isSome = true := by
    intro o x hx hn
    rcases hn with rfl | rfl <;> simp [exec, hrun, hx, stepDone]
  have htask := hinv.tasks th hmem
  rcases htask with rfl | rfl | rfl | rfl | hn | rfl | rfl
  · exact ⟨t, by simp [exec, hrun, ht, stepAdd]⟩
  · refine ⟨t, ?_⟩
    cases assertOn
    · simp [exec, hrun, ht, stepDone]
    · by_cases hc : cfg.count > 0 <;> simp [exec, hrun, ht, stepDone, hc]
  · exact ⟨t, by simp [exec, hrun, ht, stepDone]⟩
  · cases hmx : cfg.mutex with
    | none => exact ⟨t, by simp [exec, hrun, ht, stepDone, Config.acquire, hmx]⟩
    | some o =>
      obtain ⟨x, hx, hxn⟩ := hinv.owner o hmx
      exact ⟨o, hown o x hx hxn⟩
  · exact ⟨t, hown t th ht hn⟩
  · exact absurd rfl hops
  · exact absurd rfl hops

/-- C8, as stated, fails: from the initial count `2^32 - 1`, the `Add(1)` of a
single task wraps the counter to 0, so its `Done()` is entered on a counter
at 0; in a build with `assert` the process aborts there. -/
theorem stress_Done_on_zero_after_wrap :
    runSchedule true (Config.init (2 ^ 32 - 1) (List.replicate 1 guardedTask))
        [Action.exec 0] =
      some { count := 0, mutex := none, threads := [⟨[Op.Done], Pc.entry, []⟩],
             aborted := false } ∧
    runSchedule true (Config.init (2 ^ 32 - 1) (List.replicate 1 guardedTask))
        [Action.exec 0, Action.exec 0] =
      some { count := 0, mutex := none, threads := [⟨[Op.Done], Pc.entry, []⟩],
             aborted := true } := by
  decide

/-- C8, amended: for every initial count `c` and every `K` with
`c + K < 2^32`, and every interleaving of `K` tasks that each perform
`Add(1)` and then `Done()` through a guard: no assertion fails, every task
about to enter `Done()` or to decrement finds the counter positive, the run
can always continue until every task has finished, it has at most `6 * K`
actions, and once every task has finished the counter is `c`. -/
theorem stress_counter_restored (assertOn : Bool) (c K : Nat) (hK : c + K < uintSize)
    (sched : List Action) (cfg : Config)
    (h : runSchedule assertOn (Config.init c (List.replicate K guardedTask)) sched = some cfg) :
    cfg.aborted = false ∧
    (∀ th ∈ cfg.threads, th.ops.head? = some Op.Done →
      th.pc = Pc.entry ∨ th.pc = Pc.decrement → 0 < cfg.count) ∧
    (cfg.finished → cfg.count = c) ∧
    (¬ cfg.finished → ∃ t, (exec assertOn cfg t).isSome = true) ∧
    sched.length ≤ 6 * K := by
  obtain ⟨hinv, hlen⟩ := StressInv.run hK assertOn sched _ _ (StressInv.init c K) h
  refine ⟨hinv.running, ?_, ?_, hinv.progress assertOn, ?_⟩
  · intro th hmem hd hpc
    obtain ⟨t, ht⟩ := List.mem_iff_getElem?.mp hmem
    have hb := hinv.bounds ht
    have ho : th.owes = 1 := by
      rcases hinv.tasks th hmem with rfl | rfl | rfl | rfl | (rfl | rfl) | rfl | rfl <;>
        simp [Thread.owes] at hd hpc ⊢
    omega
  · intro hfin
    have hz := sum_map_eq_zero Thread.owes cfg.threads (fun x hx => by
      simp [Thread.owes, hfin x hx])
    have := hinv.count_eq
    omega
  · have e : Thread.remaining (Thread.start guardedTask) = 6 := rfl
    simp only [Config.init, List.map_replicate, e, List.sum_replicate, smul_eq_mul] at hlen
    omega

theorem stress_counter_restored_witness :
    2 + 2 < uintSize ∧
    runSchedule true (Config.init 2 (List.replicate 2 guardedTask))
      [Action.exec 1, Action.exec 0, Action.exec 1, Action.exec 1, Action.exec 0,
       Action.exec 0] =
      some ⟨2, none, [⟨[], Pc.entry, [false]⟩, ⟨[], Pc.entry, [false]⟩], false⟩ ∧
    Config.count ⟨2, none, [⟨[], Pc.entry, [false]⟩, ⟨[], Pc.entry, [false]⟩], false⟩ = 2 :=
  ⟨by decide, by decide,
   (stress_counter_restored true 2 2 (by decide)
      [Action.exec 1, Action.exec 0, Action.exec 1, Action.exec 1, Action.exec 0,
       Action.exec 0]
      ⟨2, none, [⟨[], Pc.entry, [false]⟩, ⟨[], Pc.entry, [false]⟩], false⟩
      (by decide)).2.2.1
     (by
      intro th hth
      simp only [List.mem_cons, List.mem_nil_iff, or_false] at hth
      rcases hth with rfl | rfl <;> rfl)⟩

theorem one_dec_mod : (1 + uintSize - 1) % uintSize = 0 := by decide

theorem zipWith_waiterAt_set (waiters : List Op) :
    ∀ (is : List Nat) (k : Nat) (wop : Op) (i1 : Nat), waiters[k]? = some wop →
      (List.zipWith waiterAt waiters is).set k (waiterAt wop i1) =
        List.zipWith waiterAt waiters (is.set k i1) := by
  induction waiters with
  | nil => intro is k wop i1 h; simp at h
  | cons w ws ih =>
    intro is k wop i1 h
    cases is with
    | nil => simp
    | cons i is1 =>
      cases k with
      | zero =>
        simp at h
        subst h
        simp
      | succ k =>
        simp at h
        simp [ih is1 k wop i1 h]

theorem handoffState_set (waiters : List Op) (is : List Nat) (j : Nat) (m m1 : Option Nat)
    (k : Nat) (wop : Op) (i1 : Nat) (hw : waiters[k]? = some wop) :
    handoffState waiters (is.set k i1) j m1 =
      { count := if j ≤ 1 then 1 else 0, mutex := m1,
        threads := (handoffState waiters is j m).threads.set (k + 1) (waiterAt wop i1),
        aborted := false } := by
  simp [handoffState, zipWith_waiterAt_set waiters is k wop i1 hw]

theorem handoffState_thread (waiters : List Op) (is : List Nat) (j : Nat) (m : Option Nat)
    (k : Nat) (wop : Op) (i : Nat) (hw : waiters[k]? = some wop) (hi : is[k]? = some i) :
    (handoffState waiters is j m).threads[k + 1]? = some (waiterAt wop i) := by
  simp [handoffState, List.getElem?_zipWith, hw, hi]

theorem exec_waiter (assertOn : Bool) (waiters : List Op) (is : List Nat) (j : Nat)
    (m : Option Nat) (k : Nat) (wop : Op) (i : Nat)
    (hop : wop = Op.Wait ∨ ∃ ms, wop = Op.WaitFor ms)
    (hw : waiters[k]? = some wop) (hi : is[k]? = some i) :
    exec assertOn (handoffState waiters is j m) (k + 1) =
      (waiterMove i j m.isNone).map
        (fun i1 => handoffState waiters (is.set k i1) j (waiterMutex i k m)) := by
  have ht := handoffState_thread waiters is j m k wop i hw hi
  simp only [handoffState_set waiters is j m _ k wop _ hw]
  unfold exec
  rw [ht]
  have hab : (handoffState waiters is j m).aborted = false := rfl
  have hcnt : (handoffState waiters is j m).count = if j ≤ 1 then 1 else 0 := rfl
  have hmx : (handoffState waiters is j m).mutex = m := rfl
  generalize handoffState waiters is j m = c at *
  rcases hop with rfl | ⟨ms, rfl⟩ <;>
  rcases i with _ | _ | _ | _ | _ | _ | _ | i <;>
  cases m <;>
  by_cases hj : j ≤ 1 <;>
  simp [waiterAt, waiterMove, waiterMutex, stepWait, stepWaitFor, Config.setThread,
    Config.acquire, Config.release, Thread.goto, Thread.finish, Op.ret, Op.rets, hab, hcnt,
    hmx, hj]

theorem exec_waiter_none (assertOn : Bool) (waiters : List Op) (is : List Nat) (j : Nat)
    (m : Option Nat) (k : Nat) (hlen : is.length = waiters.length) (hk : is.length ≤ k) :
    step assertOn (handoffState waiters is j m) (Action.exec (k + 1)) = none ∧
    step assertOn (handoffState waiters is j m) (Action.spurious (k + 1)) = none := by
  have hz : (List.zipWith waiterAt waiters is)[k]? = none := by
    apply List.getElem?_eq_none
    simp only [List.length_zipWith]
    omega
  constructor
  · simp [WaitGroup.step, exec, handoffState, hz]
  · simp [WaitGroup.step, unblock, handoffState, hz]

theorem notified_waiterAt (wop : Op) (i : Nat) :
    Thread.notified (waiterAt wop i) = waiterAt wop (wakeAt 3 i) := by
  rcases i with _ | _ | _ | _ | _ | _ | _ | i <;>
  simp [Thread.notified, waiterAt, wakeAt, Thread.goto]

theorem map_notified_zipWith (waiters : List Op) :
    ∀ is : List Nat, (List.zipWith waiterAt waiters is).map Thread.notified =
      List.zipWith waiterAt waiters (is.map (wakeAt 3)) := by
  induction waiters with
  | nil => intro is; simp
  | cons w ws ih =>
    intro is
    cases is with
    | nil => simp
    | cons i is1 => simp [ih is1, notified_waiterAt]

theorem map_wakeAt_of_ne (j : Nat) (hj : j ≠ 3) (is : List Nat) :
    is.map (wakeAt j) = is := by
  have : wakeAt j = id := by
    funext i
    simp [wakeAt, hj]
  rw [this, List.map_id]

theorem exec_doner (assertOn : Bool) (waiters : List Op) (is : List Nat) (j : Nat)
    (m : Option Nat) :
    exec assertOn (handoffState waiters is j m) 0 =
      (donerMove assertOn j m.isNone).map
        (fun j1 => handoffState waiters (is.map (wakeAt j)) j1 (donerMutex j m)) := by
  rcases j with _ | _ | _ | _ | _ | j
  · rw [map_wakeAt_of_ne 0 (by decide)]
    cases assertOn <;>
    simp [exec, handoffState, donerAt, donerMove, donerMutex, stepDone, stepDecrement,
      Config.setThread, Thread.goto, one_dec_mod]
  · rw [map_wakeAt_of_ne 1 (by decide)]
    simp [exec, handoffState, donerAt, donerMove, donerMutex, stepDone, stepDecrement,
      Thread.goto, one_dec_mod]
  · rw [map_wakeAt_of_ne 2 (by decide)]
    cases m <;>
    simp [exec, handoffState, donerAt, donerMove, donerMutex, stepDone, Config.acquire,
      Thread.goto]
  · simp [exec, handoffState, donerAt, donerMove, donerMutex, stepDone, Thread.goto,
      Thread.notified, map_notified_zipWith]
  · rw [map_wakeAt_of_ne 4 (by decide)]
    simp [exec, handoffState, donerAt, donerMove, donerMutex, stepDone, Config.release,
      Thread.finish]
  · simp [exec, handoffState, donerAt, donerMove]

theorem unblock_doner (waiters : List Op) (is : List Nat) (j : Nat) (m : Option Nat)
    (b : Bool) : unblock (handoffState waiters is j m) 0 b = none := by
  rcases j with _ | _ | _ | _ | _ | j <;>
  simp [unblock, handoffState, donerAt]

theorem unblock_waiter (waiters : List Op) (is : List Nat) (j : Nat)
    (m : Option Nat) (k : Nat) (wop : Op) (i : Nat)
    (hop : wop = Op.Wait ∨ ∃ ms, wop = Op.WaitFor ms)
    (hw : waiters[k]? = some wop) (hi : is[k]? = some i) :
    unblock (handoffState waiters is j m) (k + 1) false =
      if i = 4 then some (handoffState waiters (is.set k 5) j m) else none := by
  have ht := handoffState_thread waiters is j m k wop i hw hi
  simp only [handoffState_set waiters is j m _ k wop _ hw]
  unfold unblock
  rw [ht]
  have hab : (handoffState waiters is j m).aborted = false := rfl
  have hcnt : (handoffState waiters is j m).count = if j ≤ 1 then 1 else 0 := rfl
  have hmx : (handoffState waiters is j m).mutex = m := rfl
  generalize handoffState waiters is j m = c at *
  rcases hop with rfl | ⟨ms, rfl⟩ <;>
  rcases i with _ | _ | _ | _ | _ | _ | _ | i <;>
  simp [waiterAt, Config.setThread, Thread.goto, hab, hcnt, hmx]

theorem waiter_closed :
    ∀ p ∈ handoffPhases, ∀ free : Bool, (free = true → holdsD p.2 = false) →
      ∀ i1 ∈ waiterMove p.1 p.2 free,
        (i1, p.2) ∈ handoffPhases ∧ waiterRank i1 + 1 ≤ waiterRank p.1 ∧
        (p.2 = 5 → stepsLeft i1 + 1 ≤ stepsLeft p.1) := by
  decide

theorem doner_closed :
    ∀ p ∈ handoffPhases, ∀ b free : Bool, (free = true → holdsW p.1 = false) →
      ∀ j1 ∈ donerMove b p.2 free,
        (wakeAt p.2 p.1, j1) ∈ handoffPhases ∧
        waiterRank (wakeAt p.2 p.1) ≤ waiterRank p.1 + (if p.2 = 3 then 3 else 0) ∧
        holdsW (wakeAt p.2 p.1) = holdsW p.1 := by
  decide

theorem phase_facts :
    ∀ p ∈ handoffPhases,
      p.1 ≤ 7 ∧ (p.1 = 7 → 2 ≤ p.2) ∧ (4 ≤ p.2 → p.1 ≠ 4) ∧
      (p.1 = 4 → (5, p.2) ∈ handoffPhases ∧ p.2 ≠ 5) ∧
      (holdsW p.1 = true → holdsD p.2 = false) ∧
      (p.2 = 5 → stepsLeft p.1 ≤ 3 ∧
        (p.1 < 7 → (waiterMove p.1 p.2 true).isSome = true) ∧
        (p.1 < 7 → (waiterMove p.1 p.2 false).isSome = true ∨ holdsW p.1 = false)) := by
  decide

theorem waiterMove_of_holdsW (i j : Nat) (free : Bool) (h : holdsW i = true) :
    (waiterMove i j free).isSome = true := by
  simp only [holdsW, Bool.or_eq_true, beq_iff_eq] at h
  rcases h with (rfl | rfl) | rfl <;> simp [waiterMove]

theorem donerRank_move (n : Nat) (assertOn free : Bool) (j j1 : Nat)
    (h : donerMove assertOn j free = some j1) :
    j < 5 ∧ j1 ≤ 5 ∧
    donerRank n j1 + 1 + (if j = 3 then 3 * n else 0) ≤ donerRank n j := by
  rcases j with _ | _ | _ | _ | _ | j
  · cases assertOn <;> simp [donerMove] at h <;> subst h <;> simp [donerRank] <;> omega
  · simp [donerMove] at h; subst h; simp [donerRank]; omega
  · cases free <;> simp [donerMove] at h; subst h; simp [donerRank]; omega
  · simp [donerMove] at h; subst h; simp [donerRank]
  · simp [donerMove] at h; subst h; simp [donerRank]
  · simp [donerMove] at h

theorem HandoffInv.free_doner {n : Nat} {is : List Nat} {j : Nat} {m : Option Nat}
    (hinv : HandoffInv n is j m) (h : m.isNone = true) : holdsD j = false := by
  cases m with
  | some t => simp at h
  | none =>
    cases hd : holdsD j with
    | false => rfl
    | true => exact absurd (hinv.ownerD.mp hd) (by simp)

theorem HandoffInv.free_waiter {n : Nat} {is : List Nat} {j : Nat} {m : Option Nat}
    (hinv : HandoffInv n is j m) (h : m.isNone = true) (i : Nat) (hi : i ∈ is) :
    holdsW i = false := by
  obtain ⟨k, hk⟩ := List.mem_iff_getElem?.mp hi
  cases m with
  | some t => simp at h
  | none =>
    cases hd : holdsW i with
    | false => rfl
    | true => exact absurd ((hinv.ownerW k i hk).mp hd) (by simp)

theorem getElem?_lt_length {α : Type} {l : List α} {k : Nat} {a : α} (h : l[k]? = some a) :
    k < l.length := by
  rcases Nat.lt_or_ge k l.length with hlt | hge
  · exact hlt
  · rw [List.getElem?_eq_none hge] at h
    cases h

/-- A move of waiter `k` keeps the invariant and lowers the potentials. -/
theorem HandoffInv.waiter_step {n : Nat} {is : List Nat} {j : Nat} {m : Option Nat}
    (hinv : HandoffInv n is j m) (k i i1 : Nat) (hi : is[k]? = some i)
    (hmove : waiterMove i j m.isNone = some i1) :
    HandoffInv n (is.set k i1) j (waiterMutex i k m) ∧
    ((is.set k i1).map waiterRank).sum + 1 ≤ (is.map waiterRank).sum ∧
    (j = 5 → ((is.set k i1).map stepsLeft).sum + 1 ≤ (is.map stepsLeft).sum) := by
  have hmem : i ∈ is := List.mem_iff_getElem?.mpr ⟨k, hi⟩
  have hph := hinv.pairs i hmem
  have hklt := getElem?_lt_length hi
  have hcl := waiter_closed (i, j) hph m.isNone (fun h => hinv.free_doner h) i1 hmove
  dsimp only at hcl
  have hown := hinv.ownerW k i hi
  have hr := sum_map_set waiterRank is k i i1 hi
  have hs := sum_map_set stepsLeft is k i i1 hi
  refine ⟨⟨by simp [hinv.length_eq], hinv.doner_le, ?_, ?_, ?_, ?_⟩, by omega, ?_⟩
  · intro x hx
    rcases List.mem_or_eq_of_mem_set hx with h | h
    · exact hinv.pairs x h
    · rw [h]; exact hcl.1
  · -- the thread in `Done()` owns the mutex exactly as before
    have hD := hinv.ownerD
    rcases i with _ | _ | _ | _ | _ | _ | _ | i
    · exact hD
    · cases m with
      | some t => simp [waiterMove] at hmove
      | none => simp [waiterMutex] at hD ⊢; exact hD
    · exact hD
    · have : m = some (k + 1) := hown.mp (by decide)
      subst this
      simp [waiterMutex] at hD ⊢
      exact hD
    · simp [waiterMove] at hmove
    · cases m with
      | some t => simp [waiterMove] at hmove
      | none => simp [waiterMutex] at hD ⊢; exact hD
    · have : m = some (k + 1) := hown.mp (by decide)
      subst this
      simp [waiterMutex] at hD ⊢
      exact hD
    · simp [waiterMove] at hmove
  · intro k1 x hx
    rw [List.getElem?_set] at hx
    by_cases hk : k = k1
    · subst hk
      simp only [if_true, hklt] at hx
      cases hx
      rcases i with _ | _ | _ | _ | _ | _ | _ | i
      · have h0 : holdsW 0 = false := by decide
        rw [h0] at hown
        by_cases hj : j ≤ 1 <;> simp [waiterMove, hj] at hmove <;> subst hmove <;>
          simp [waiterMutex, holdsW] <;> simpa using hown
      · simp [waiterMove] at hmove
        simp [← hmove.2, waiterMutex, holdsW]
      · have h2 : holdsW 2 = true := by decide
        rw [h2] at hown
        by_cases hj : j ≤ 1 <;> simp [waiterMove, hj] at hmove <;> subst hmove <;>
          simp [waiterMutex, holdsW] <;> simpa using hown
      · simp [waiterMove] at hmove
        simp [← hmove, waiterMutex, holdsW]
      · simp [waiterMove] at hmove
      · simp [waiterMove] at hmove
        simp [← hmove.2, waiterMutex, holdsW]
      · simp [waiterMove] at hmove
        simp [← hmove, waiterMutex, holdsW]
      · simp [waiterMove] at hmove
    · simp only [hk, if_false] at hx
      have hx1 := hinv.ownerW k1 x hx
      have hne : ¬ (k + 1 = k1 + 1) := by omega
      rcases i with _ | _ | _ | _ | _ | _ | _ | i
      · exact hx1
      · cases m with
        | some t => simp [waiterMove] at hmove
        | none => simp [waiterMutex, hne] at hx1 ⊢; exact hx1
      · exact hx1
      · have : m = some (k + 1) := hown.mp (by decide)
        subst this
        simp [waiterMutex, hne] at hx1 ⊢
        exact hx1
      · simp [waiterMove] at hmove
      · cases m with
        | some t => simp [waiterMove] at hmove
        | none => simp [waiterMutex, hne] at hx1 ⊢; exact hx1
      · have : m = some (k + 1) := hown.mp (by decide)
        subst this
        simp [waiterMutex, hne] at hx1 ⊢
        exact hx1
      · simp [waiterMove] at hmove
  · intro t ht
    have hv := hinv.valid t
    have hn := hinv.length_eq
    rcases i with _ | _ | _ | _ | _ | _ | _ | i <;>
      simp [waiterMutex] at ht <;> first | exact hv ht | omega
  · intro h5
    have := hcl.2.2 h5
    omega

theorem sum_map_map_le (f g : Nat → Nat) (c : Nat) :
    ∀ l : List Nat, (∀ x ∈ l, f (g x) ≤ f x + c) →
      ((l.map g).map f).sum ≤ (l.map f).sum + c * l.length := by
  intro l
  induction l with
  | nil => intro _; simp
  | cons a as ih =>
    intro h
    have h1 := h a (List.mem_cons_self _ _)
    have h2 := ih (fun x hx => h x (List.mem_cons_of_mem _ hx))
    simp only [List.map_cons, List.sum_cons, List.length_cons, Nat.mul_succ]
    omega

/-- A move of the thread in `Done()` keeps the invariant and lowers the
potential. -/
theorem HandoffInv.doner_step {n : Nat} {is : List Nat} {j : Nat} {m : Option Nat}
    (hinv : HandoffInv n is j m) (assertOn : Bool) (j1 : Nat)
    (hmove : donerMove assertOn j m.isNone = some j1) :
    HandoffInv n (is.map (wakeAt j)) j1 (donerMutex j m) ∧
    ((is.map (wakeAt j)).map waiterRank).sum + donerRank n j1 + 1 ≤
      (is.map waiterRank).sum + donerRank n j ∧
    j < 5 := by
  have hcl : ∀ i ∈ is, (wakeAt j i, j1) ∈ handoffPhases ∧
      waiterRank (wakeAt j i) ≤ waiterRank i + (if j = 3 then 3 else 0) ∧
      holdsW (wakeAt j i) = holdsW i := by
    intro i hi
    exact doner_closed (i, j) (hinv.pairs i hi) assertOn m.isNone
      (fun h => hinv.free_waiter h i hi) j1 hmove
  have hrk := donerRank_move n assertOn m.isNone j j1 hmove
  have hsum := sum_map_map_le waiterRank (wakeAt j) (if j = 3 then 3 else 0) is
    (fun x hx => (hcl x hx).2.1)
  rw [hinv.length_eq] at hsum
  have hD := hinv.ownerD
  refine ⟨⟨by simp [hinv.length_eq], hrk.2.1, ?_, ?_, ?_, ?_⟩, ?_, hrk.1⟩
  · intro x hx
    obtain ⟨i, hi, rfl⟩ := List.mem_map.mp hx
    exact (hcl i hi).1
  · rcases j with _ | _ | _ | _ | _ | j
    · cases assertOn <;> simp [donerMove] at hmove <;> subst hmove <;>
        simp [donerMutex, holdsD] at hD ⊢ <;> exact hD
    · simp [donerMove] at hmove; subst hmove
      simp [donerMutex, holdsD] at hD ⊢; exact hD
    · cases m with
      | some t => simp [donerMove] at hmove
      | none =>
        simp [donerMove] at hmove; subst hmove
        simp [donerMutex, holdsD]
    · simp [donerMove] at hmove; subst hmove
      simp [donerMutex, holdsD] at hD ⊢; exact hD
    · simp [donerMove] at hmove; subst hmove
      simp [donerMutex, holdsD]
    · simp [donerMove] at hmove
  · intro k x hx
    rw [List.getElem?_map] at hx
    cases hi : is[k]? with
    | none => simp [hi] at hx
    | some i =>
      simp only [hi, Option.map_some', Option.some.injEq] at hx
      subst hx
      have hW := hinv.ownerW k i hi
      rw [(hcl i (List.mem_iff_getElem?.mpr ⟨k, hi⟩)).2.2]
      rcases j with _ | _ | _ | _ | _ | j
      · exact hW
      · exact hW
      · cases m with
        | some t => simp [donerMove] at hmove
        | none => simp [donerMutex] at hW ⊢; exact hW
      · exact hW
      · have : m = some 0 := hD.mp (by decide)
        subst this
        simp [donerMutex] at hW ⊢
        exact hW
      · exact hW
  · intro t ht
    have hv := hinv.valid t
    rcases j with _ | _ | _ | _ | _ | j <;>
      simp [donerMutex] at ht <;> first | exact hv ht | omega
  · have h3 : (if j = 3 then 3 else 0) * n = if j = 3 then 3 * n else 0 := by
      split <;> simp
    rw [h3] at hsum
    omega

/-- A spurious wake-up of waiter `k` keeps the invariant and raises the
potential by 3. -/
theorem HandoffInv.spurious_step {n : Nat} {is : List Nat} {j : Nat} {m : Option Nat}
    (hinv : HandoffInv n is j m) (k : Nat) (hi : is[k]? = some 4) :
    HandoffInv n (is.set k 5) j m ∧
    ((is.set k 5).map waiterRank).sum ≤ (is.map waiterRank).sum + 3 ∧
    j ≠ 5 := by
  have hmem : 4 ∈ is := List.mem_iff_getElem?.mpr ⟨k, hi⟩
  have hph := phase_facts (4, j) (hinv.pairs 4 hmem)
  dsimp only at hph
  have hklt := getElem?_lt_length hi
  have hr := sum_map_set waiterRank is k 4 5 hi
  have e4 : waiterRank 4 = 2 := rfl
  have e5 : waiterRank 5 = 5 := rfl
  refine ⟨⟨by simp [hinv.length_eq], hinv.doner_le, ?_, hinv.ownerD, ?_, hinv.valid⟩,
    by omega, (hph.2.2.2.1 rfl).2⟩
  · intro x hx
    rcases List.mem_or_eq_of_mem_set hx with h | h
    · exact hinv.pairs x h
    · rw [h]; exact (hph.2.2.2.1 rfl).1
  · intro k1 x hx
    rw [List.getElem?_set] at hx
    by_cases hk : k = k1
    · subst hk
      simp only [if_true, hklt] at hx
      cases hx
      have := hinv.ownerW k 4 hi
      simpa [holdsW] using this
    · simp only [hk, if_false] at hx
      exact hinv.ownerW k1 x hx

/-- One transition of the machine from a state of the hand-off scenario
leads to another such state. -/
theorem handoff_step (assertOn : Bool) (waiters : List Op)
    (hops : ∀ w ∈ waiters, w = Op.Wait ∨ ∃ ms, w = Op.WaitFor ms)
    {is : List Nat} {j : Nat} {m : Option Nat}
    (hinv : HandoffInv waiters.length is j m) (a : Action) (hna : ¬ a.isTimeout)
    (cfg1 : Config) (h : step assertOn (handoffState waiters is j m) a = some cfg1) :
    ∃ is1 j1 m1, cfg1 = handoffState waiters is1 j1 m1 ∧
      HandoffInv waiters.length is1 j1 m1 ∧
      (is1.map waiterRank).sum + donerRank waiters.length j1 + a.cost.1 ≤
        (is.map waiterRank).sum + donerRank waiters.length j + a.cost.2 ∧
      (j = 5 → j1 = 5 ∧ (is1.map stepsLeft).sum + 1 ≤ (is.map stepsLeft).sum) := by
  have hlen := hinv.length_eq
  cases a with
  | timeout t => exact absurd trivial hna
  | exec t =>
    rcases t with _ | k
    · simp only [WaitGroup.step, exec_doner] at h
      cases hm : donerMove assertOn j m.isNone with
      | none => simp [hm] at h
      | some j1 =>
        simp only [hm, Option.map_some', Option.some.injEq] at h
        obtain ⟨h1, h2, h3⟩ := hinv.doner_step assertOn j1 hm
        refine ⟨_, _, _, h.symm, h1, ?_, ?_⟩
        · simp only [Action.cost]
          omega
        · intro h5
          omega
    · rcases Nat.lt_or_ge k is.length with hk | hk
      · have hk2 : k < waiters.length := by omega
        have hi : is[k]? = some is[k] := List.getElem?_eq_getElem hk
        have hw : waiters[k]? = some waiters[k] := List.getElem?_eq_getElem hk2
        have hop := hops waiters[k] (List.getElem_mem _)
        simp only [WaitGroup.step, exec_waiter assertOn waiters is j m k _ _ hop hw hi] at h
        cases hm : waiterMove is[k] j m.isNone with
        | none => simp [hm] at h
        | some i1 =>
          simp only [hm, Option.map_some', Option.some.injEq] at h
          obtain ⟨h1, h2, h3⟩ := hinv.waiter_step k _ i1 hi hm
          refine ⟨_, _, _, h.symm, h1, ?_, ?_⟩
          · simp only [Action.cost]
            omega
          · intro h5
            exact ⟨h5, h3 h5⟩
      · rw [(exec_waiter_none assertOn waiters is j m k hlen hk).1] at h
        cases h
  | spurious t =>
    rcases t with _ | k
    · simp only [WaitGroup.step, unblock_doner] at h
      cases h
    · rcases Nat.lt_or_ge k is.length with hk | hk
      · have hk2 : k < waiters.length := by omega
        have hi : is[k]? = some is[k] := List.getElem?_eq_getElem hk
        have hw : waiters[k]? = some waiters[k] := List.getElem?_eq_getElem hk2
        have hop := hops waiters[k] (List.getElem_mem _)
        simp only [WaitGroup.step, unblock_waiter waiters is j m k _ _ hop hw hi] at h
        by_cases h4 : is[k] = 4
        · simp only [h4, if_true, Option.some.injEq] at h
          rw [h4] at hi
          obtain ⟨h1, h2, h3⟩ := hinv.spurious_step k hi
          refine ⟨_, _, _, h.symm, h1, ?_, ?_⟩
          · simp only [Action.cost]
            omega
          · intro h5
            exact absurd h5 h3
        · simp [h4] at h
      · rw [(exec_waiter_none assertOn waiters is j m k hlen hk).2] at h
        cases h

theorem noTimeout_cons {a : Action} {as : List Action} (h : noTimeout (a :: as)) :
    ¬ a.isTimeout ∧ noTimeout as := by
  constructor
  · intro ha
    cases a with
    | timeout t => exact h t (List.mem_cons_self _ _)
    | exec t => exact ha
    | spurious t => exact ha
  · intro t ht
    exact h t (List.mem_cons_of_mem _ ht)

theorem handoff_run (assertOn : Bool) (waiters : List Op)
    (hops : ∀ w ∈ waiters, w = Op.Wait ∨ ∃ ms, w = Op.WaitFor ms) (sched : List Action) :
    ∀ (is : List Nat) (j : Nat) (m : Option Nat), HandoffInv waiters.length is j m →
      noTimeout sched → ∀ cfg,
      runSchedule assertOn (handoffState waiters is j m) sched = some cfg →
      ∃ is1 j1 m1, cfg = handoffState waiters is1 j1 m1 ∧
        HandoffInv waiters.length is1 j1 m1 ∧
        (is1.map waiterRank).sum + donerRank waiters.length j1 + execCount sched ≤
          (is.map waiterRank).sum + donerRank waiters.length j + 3 * spuriousCount sched ∧
        (j = 5 → j1 = 5 ∧ (is1.map stepsLeft).sum + sched.length ≤ (is.map stepsLeft).sum) := by
  induction sched with
  | nil =>
    intro is j m hinv _ cfg h
    simp only [runSchedule, Option.some.injEq] at h
    exact ⟨is, j, m, h.symm, hinv, by simp [execCount, spuriousCount],
      fun h5 => ⟨h5, by simp⟩⟩
  | cons a as ih =>
    intro is j m hinv hnt cfg h
    obtain ⟨hna, hnt1⟩ := noTimeout_cons hnt
    unfold runSchedule at h
    cases hs : WaitGroup.step assertOn (handoffState waiters is j m) a with
    | none => simp [hs] at h
    | some c1 =>
      simp only [hs] at h
      obtain ⟨is1, j1, m1, rfl, hinv1, hr1, hs1⟩ :=
        handoff_step assertOn waiters hops hinv a hna c1 hs
      obtain ⟨is2, j2, m2, hc2, hinv2, hr2, hs2⟩ := ih is1 j1 m1 hinv1 hnt1 cfg h
      refine ⟨is2, j2, m2, hc2, hinv2, ?_, ?_⟩
      · cases a with
        | exec t =>
          simp only [execCount, spuriousCount, Action.cost] at hr1 hr2 ⊢
          omega
        | spurious t =>
          simp only [execCount, spuriousCount, Action.cost] at hr1 hr2 ⊢
          omega
        | timeout t => exact absurd trivial hna
      · intro h5
        obtain ⟨h51, h52⟩ := hs1 h5
        obtain ⟨h53, h54⟩ := hs2 h51
        refine ⟨h53, ?_⟩
        simp only [List.length_cons]
        omega

theorem waiterAt_facts (wop : Op) (i : Nat) :
    ((waiterAt wop i).ops = [] ↔ 7 ≤ i) ∧
    ((waiterAt wop i).pc = Pc.blocked ↔ i = 4) ∧
    (7 ≤ i → (waiterAt wop i).rets = wop.rets) := by
  rcases i with _ | _ | _ | _ | _ | _ | _ | i <;> simp [waiterAt]

theorem donerAt_facts (j : Nat) :
    ((donerAt j).ops = [] ↔ 5 ≤ j) ∧
    ((donerAt j).pc = Pc.unlock (some true) ↔ j = 4) ∧
    ((donerAt j).owes = 0 ↔ 2 ≤ j) := by
  rcases j with _ | _ | _ | _ | _ | j <;> simp [donerAt, Thread.owes]

theorem handoff_init (waiters : List Op) :
    Config.init 1 ([Op.Done] :: waiters.map (fun w => [w])) =
      handoffState waiters (List.replicate waiters.length 0) 0 none := by
  have hz : ∀ l : List Op, List.zipWith waiterAt l (List.replicate l.length 0) =
      (l.map (fun w => [w])).map Thread.start := by
    intro l
    induction l with
    | nil => rfl
    | cons w ws ih =>
      simp only [List.length_cons, List.replicate_succ, List.zipWith_cons_cons, ih,
        List.map_cons]
      rfl
  simp only [Config.init, handoffState, hz, List.map_cons]
  rfl

theorem HandoffInv.initial (n : Nat) : HandoffInv n (List.replicate n 0) 0 none := by
  refine ⟨by simp, by decide, ?_, by decide, ?_, ?_⟩
  · intro i hi
    rw [List.eq_of_mem_replicate hi]
    decide
  · intro k i hi
    have := List.eq_of_mem_replicate (List.mem_iff_getElem?.mpr ⟨k, hi⟩)
    subst this
    simp [holdsW]
  · intro t ht
    cases ht

theorem sum_map_le_mul (f : Nat → Nat) (c : Nat) :
    ∀ l : List Nat, (∀ x ∈ l, f x ≤ c) → (l.map f).sum ≤ c * l.length := by
  intro l
  induction l with
  | nil => intro _; simp
  | cons a as ih =>
    intro h
    have h1 := h a (List.mem_cons_self _ _)
    have h2 := ih (fun x hx => h x (List.mem_cons_of_mem _ hx))
    simp only [List.map_cons, List.sum_cons, List.length_cons, Nat.mul_succ]
    omega

/-- In a state of the hand-off scenario some thread can move unless every
thread has returned. -/
theorem handoff_progress (assertOn : Bool) (waiters : List Op)
    (hops : ∀ w ∈ waiters, w = Op.Wait ∨ ∃ ms, w = Op.WaitFor ms)
    {is : List Nat} {j : Nat} {m : Option Nat}
    (hinv : HandoffInv waiters.length is j m)
    (hnf : ¬ (handoffState waiters is j m).finished) :
    ∃ t, (exec assertOn (handoffState waiters is j m) t).isSome = true := by
  have hlen := hinv.length_eq
  have hwaiter : ∀ k, k < is.length → ∀ free : Bool, m.isNone = free →
      (waiterMove is[k]! j free).isSome = true →
      (exec assertOn (handoffState waiters is j m) (k + 1)).isSome = true := by
    intro k hk free hfree hmv
    have hk2 : k < waiters.length := by omega
    have hi : is[k]? = some is[k] := List.getElem?_eq_getElem hk
    have hw : waiters[k]? = some waiters[k] := List.getElem?_eq_getElem hk2
    have hop := hops waiters[k] (List.getElem_mem _)
    have e : is[k]! = is[k] := by simp [getElem!_pos, hk]
    rw [exec_waiter assertOn waiters is j m k _ _ hop hw hi, hfree, ← e]
    cases hx : waiterMove is[k]! j free with
    | none => simp [hx] at hmv
    | some r => rfl
  have holder : ∀ t, m = some t → holdsD j = false →
      ∃ t1, (exec assertOn (handoffState waiters is j m) t1).isSome = true := by
    intro t ht hd
    rcases t with _ | k
    · have := hinv.ownerD.mpr ht
      rw [hd] at this
      cases this
    · have hk : k < is.length := by
        have := hinv.valid _ ht
        omega
      have hi : is[k]? = some is[k] := List.getElem?_eq_getElem hk
      have hh := (hinv.ownerW k _ hi).mpr ht
      have e : is[k]! = is[k] := by simp [getElem!_pos, hk]
      exact ⟨k + 1, hwaiter k hk m.isNone rfl (by
        rw [e]
        exact waiterMove_of_holdsW _ _ _ hh)⟩
  cases hm : donerMove assertOn j m.isNone with
  | some j1 =>
    refine ⟨0, ?_⟩
    rw [exec_doner, hm]
    rfl
  | none =>
    have hj5 := hinv.doner_le
    rcases j with _ | _ | _ | _ | _ | j
    · cases assertOn <;> simp [donerMove] at hm
    · simp [donerMove] at hm
    · rcases Option.eq_none_or_eq_some m with hmx | ⟨t, hmx⟩
      · simp [donerMove, hmx] at hm
      · exact holder t hmx (by decide)
    · simp [donerMove] at hm
    · simp [donerMove] at hm
    · have hj : j = 0 := by omega
      subst hj
      -- `Done()` has returned: a waiter has not
      have hex : ∃ k, k < is.length ∧ is[k]! < 7 := by
        by_contra hcon
        push_neg at hcon
        apply hnf
        intro th hth
        simp only [handoffState, List.mem_cons] at hth
        rcases hth with rfl | hth
        · rfl
        · obtain ⟨k, hk⟩ := List.mem_iff_getElem?.mp hth
          obtain ⟨x, y, hx, hy, rfl⟩ := List.getElem?_zipWith_eq_some.mp hk
          have hkl := getElem?_lt_length hy
          have h7 := hcon k hkl
          have e : is[k]! = y := by
            simp [getElem!_pos, hkl]
            rw [List.getElem?_eq_getElem hkl] at hy
            exact Option.some.inj hy
          rw [e] at h7
          exact (waiterAt_facts x y).1.mpr h7
      obtain ⟨k, hk, h7⟩ := hex
      have e : is[k]! = is[k] := by simp [getElem!_pos, hk]
      have hph := phase_facts (is[k], 5) (hinv.pairs _ (List.getElem_mem _))
      dsimp only at hph
      rcases Option.eq_none_or_eq_some m with hmx | ⟨t, hmx⟩
      · refine ⟨k + 1, hwaiter k hk true (by simp [hmx]) ?_⟩
        rw [e]
        exact (hph.2.2.2.2.2 rfl).2.1 (by omega)
      · exact holder t hmx (by decide)

/-- C9: with the counter at 1, any number of threads each in `Wait()` or in
`WaitFor(ms)` (no timeout occurring) and one thread in `Done()`, in every
interleaving, with any spurious wake-ups: a waiter has returned only if the
decrement to 0 has been executed (and its `WaitFor` has then returned
`true`); after the `notify_all` no waiter is blocked on the condition
variable, so every waiter blocked at that moment has been woken; once
`Done()` has returned every continuation has at most three actions per
waiter; some thread can always move until all have returned; and the run has
at most `5 + 9 * (number of waiters) + 3 * (number of spurious wake-ups)`
thread actions. -/
theorem no_missed_wakeup (assertOn : Bool) (waiters : List Op)
    (hops : ∀ w ∈ waiters, w = Op.Wait ∨ ∃ ms, w = Op.WaitFor ms)
    (sched : List Action) (hnt : noTimeout sched) (cfg : Config)
    (h : runSchedule assertOn
      (Config.init 1 ([Op.Done] :: waiters.map (fun w => [w]))) sched = some cfg) :
    ∃ (d : Thread) (ws : List Thread),
      cfg.threads = d :: ws ∧ ws.length = waiters.length ∧ cfg.aborted = false ∧
      (∀ (k : Nat) (w : Thread), ws[k]? = some w → w.ops = [] →
        cfg.count = 0 ∧ d.owes = 0 ∧
        ∀ ms, waiters[k]? = some (Op.WaitFor ms) → w.rets = [true]) ∧
      (d.pc = Pc.unlock (some true) ∨ d.ops = [] → ∀ w ∈ ws, w.pc ≠ Pc.blocked) ∧
      (d.ops = [] → ∀ sched2 cfg2, noTimeout sched2 →
        runSchedule assertOn cfg sched2 = some cfg2 →
        sched2.length ≤ 3 * waiters.length) ∧
      (¬ cfg.finished → ∃ t, (exec assertOn cfg t).isSome = true) ∧
      execCount sched ≤ 5 + 9 * waiters.length + 3 * spuriousCount sched := by
  rw [handoff_init] at h
  obtain ⟨is, j, m, rfl, hinv, hrank, -⟩ :=
    handoff_run assertOn waiters hops sched _ _ _ (HandoffInv.initial waiters.length) hnt cfg h
  have hlen := hinv.length_eq
  have hj5 := hinv.doner_le
  obtain ⟨d1, d2, d3⟩ := donerAt_facts j
  refine ⟨donerAt j, List.zipWith waiterAt waiters is, rfl, by simp [hlen], rfl,
    ?_, ?_, ?_, handoff_progress assertOn waiters hops hinv, ?_⟩
  · intro k w hk hwo
    obtain ⟨x, y, hx, hy, rfl⟩ := List.getElem?_zipWith_eq_some.mp hk
    obtain ⟨w1, -, w3⟩ := waiterAt_facts x y
    have hph := phase_facts (y, j) (hinv.pairs y (List.mem_iff_getElem?.mpr ⟨k, hy⟩))
    dsimp only at hph
    have h7 : y = 7 := by
      have := w1.mp hwo
      omega
    have h2 : 2 ≤ j := hph.2.1 h7
    refine ⟨?_, d3.mpr h2, ?_⟩
    · have : ¬ j ≤ 1 := by omega
      simp [handoffState, this]
    · intro ms hms
      rw [hx] at hms
      cases hms
      rw [w3 (by omega)]
      rfl
  · intro hd w hw hb
    obtain ⟨k, hk⟩ := List.mem_iff_getElem?.mp hw
    obtain ⟨x, y, hx, hy, rfl⟩ := List.getElem?_zipWith_eq_some.mp hk
    have hph := phase_facts (y, j) (hinv.pairs y (List.mem_iff_getElem?.mpr ⟨k, hy⟩))
    dsimp only at hph
    have h4 : 4 ≤ j := by
      rcases hd with hd | hd
      · have := d2.mp hd; omega
      · have := d1.mp hd; omega
    exact hph.2.2.1 h4 ((waiterAt_facts x y).2.1.mp hb)
  · intro hd sched2 cfg2 hnt2 hrun2
    have h5 : j = 5 := by
      have := d1.mp hd
      omega
    obtain ⟨is2, j2, m2, -, -, -, hsteps⟩ :=
      handoff_run assertOn waiters hops sched2 is j m hinv hnt2 cfg2 hrun2
    have hb := sum_map_le_mul stepsLeft 3 is (fun x hx => by
      have hph := phase_facts (x, j) (hinv.pairs x hx)
      dsimp only at hph
      exact (hph.2.2.2.2.2 h5).1)
    have := (hsteps h5).2
    omega
  · have e0 : ((List.replicate waiters.length 0).map waiterRank).sum = 6 * waiters.length := by
      have e : waiterRank 0 = 6 := rfl
      simp [List.map_replicate, e, List.sum_replicate, Nat.mul_comm]
    have e1 : donerRank waiters.length 0 = 5 + 3 * waiters.length := rfl
    omega

theorem no_missed_wakeup_witness :
    (∀ w ∈ [Op.Wait, Op.WaitFor 1000], w = Op.Wait ∨ ∃ ms, w = Op.WaitFor ms) ∧
    noTimeout [Action.exec 1, Action.exec 1, Action.exec 1, Action.exec 1,
      Action.exec 2, Action.exec 2, Action.exec 2, Action.exec 2,
      Action.exec 0, Action.exec 0, Action.exec 0, Action.exec 0] ∧
    runSchedule true
      (Config.init 1 ([Op.Done] :: [Op.Wait, Op.WaitFor 1000].map (fun w => [w])))
      [Action.exec 1, Action.exec 1, Action.exec 1, Action.exec 1,
       Action.exec 2, Action.exec 2, Action.exec 2, Action.exec 2,
       Action.exec 0, Action.exec 0, Action.exec 0, Action.exec 0] =
      some ⟨0, some 0, [⟨[Op.Done], Pc.unlock (some true), []⟩,
        ⟨[Op.Wait], Pc.woken false, []⟩, ⟨[Op.WaitFor 1000], Pc.woken false, []⟩], false⟩ ∧
    ∀ w ∈ [(⟨[Op.Wait], Pc.woken false, []⟩ : Thread), ⟨[Op.WaitFor 1000], Pc.woken false, []⟩],
      w.pc ≠ Pc.blocked := by
  have hops : ∀ w ∈ [Op.Wait, Op.WaitFor 1000], w = Op.Wait ∨ ∃ ms, w = Op.WaitFor ms := by
    intro w hw
    simp only [List.mem_cons, List.mem_nil_iff, or_false] at hw
    rcases hw with rfl | rfl
    · exact Or.inl rfl
    · exact Or.inr ⟨1000, rfl⟩
  have hnt : noTimeout [Action.exec 1, Action.exec 1, Action.exec 1, Action.exec 1,
      Action.exec 2, Action.exec 2, Action.exec 2, Action.exec 2,
      Action.exec 0, Action.exec 0, Action.exec 0, Action.exec 0] := by
    intro t ht
    simp at ht
  have hrun : runSchedule true
      (Config.init 1 ([Op.Done] :: [Op.Wait, Op.WaitFor 1000].map (fun w => [w])))
      [Action.exec 1, Action.exec 1, Action.exec 1, Action.exec 1,
       Action.exec 2, Action.exec 2, Action.exec 2, Action.exec 2,
       Action.exec 0, Action.exec 0, Action.exec 0, Action.exec 0] =
      some ⟨0, some 0, [⟨[Op.Done], Pc.unlock (some true), []⟩,
        ⟨[Op.Wait], Pc.woken false, []⟩, ⟨[Op.WaitFor 1000], Pc.woken false, []⟩], false⟩ := by
    decide
  obtain ⟨d, ws, hth, -, -, -, hb, -⟩ :=
    no_missed_wakeup true [Op.Wait, Op.WaitFor 1000] hops _ hnt _ hrun
  simp only [List.cons.injEq] at hth
  obtain ⟨rfl, rfl⟩ := hth
  exact ⟨hops, hnt, hrun, hb (Or.inl rfl)⟩

end WaitGroup
